import Mathlib

/-!
Verification of the DBLight storage engine (repository `light`): a shallow
embedding of the RAM cache tier (`flash.py`), the single-file backend
(`system.py`) and the sharded backend (`MasterLight.py`), together with
theorems settling the specification claims.  Python dictionaries keyed by
strings are modelled as functions out of `String`; `OrderedDict` recency
maps are modelled as association lists with the most recently used entry
at the tail; time is an explicit natural-number counter.
-/

namespace DBLight

abbrev Key := String
abbrev Table := String

/-- Opaque serializable value; `vnone` models Python `None`. -/
inductive PVal where
  | vnone
  | vint (n : Int)
  | vstr (s : String)
  deriving DecidableEq, Repr

/-- TTL wrapper created by `flash.set_value`: the dict
`\x7b"val": value, "ttl": expiry\x7d` with an absolute expiry time. -/
structure Wrapper where
  val : PVal
  ttl : Option Nat
  deriving DecidableEq, Repr

/-- Value as held by the backend: either a raw value or the RAM tier's
wrapper dict (recognized in `flash.get_value` by carrying a `val` field). -/
inductive BVal where
  | raw (v : PVal)
  | wrapped (w : Wrapper)
  deriving DecidableEq, Repr

/-- `Light._table_regex.fullmatch`, the pattern `[A-Za-z0-9_]+` (system.py). -/
def validTable (s : String) : Bool :=
  !s.isEmpty && s.toList.all (fun c => c.isAlpha || c.isDigit || c = '_')

/-- Expiry test from `flash.get_value`: `time.time() > item["ttl"]`. -/
def wExpired (now : Nat) (w : Wrapper) : Bool :=
  match w.ttl with
  | some e => decide (e < now)
  | none => false

/-- Expiry computed at write time: `time.time() + ttl if ttl else None`
(a zero ttl is falsy in Python, hence no expiry). -/
def mkExpiry (now : Nat) (ttl : Option Nat) : Option Nat :=
  match ttl with
  | some d => if d = 0 then none else some (now + d)
  | none => none

/-! ### OrderedDict as an association list (most recently used at the tail) -/

/-- Lookup in a recency-ordered association list. -/
def odLookup : List (Key × Wrapper) → Key → Option Wrapper
  | [], _ => none
  | (k', w) :: rest, k => if k' = k then some w else odLookup rest k

/-- Remove every binding of a key (`OrderedDict.pop`). -/
def odErase : List (Key × Wrapper) → Key → List (Key × Wrapper)
  | [], _ => []
  | (k', w) :: rest, k =>
      if k' = k then odErase rest k else (k', w) :: odErase rest k

/-- Assignment followed by `move_to_end`: bind the key at the tail. -/
def odSet (l : List (Key × Wrapper)) (k : Key) (w : Wrapper) :
    List (Key × Wrapper) :=
  odErase l k ++ [(k, w)]

/-- `move_to_end` of an existing key.  Python raises `KeyError` on a
missing key (flash.py line 154, reachable only at `max_keys = 0` when
`_manage_memory` evicts the just-inserted entry); that branch is modelled
as a no-op, and every theorem reading through it carries a
`1 ≤ maxKeys` (or key-resident) hypothesis so the branch is never
exercised. -/
def odMoveToEnd (l : List (Key × Wrapper)) (k : Key) : List (Key × Wrapper) :=
  match odLookup l k with
  | some w => odSet l k w
  | none => l

/-- Drop the entries with a past expiry (the TTL monitor's deletions). -/
def odFilterLive (now : Nat) : List (Key × Wrapper) → List (Key × Wrapper)
  | [] => []
  | (k, w) :: rest =>
      if wExpired now w then odFilterLive now rest
      else (k, w) :: odFilterLive now rest

/-- `flash._manage_memory`: pop the single oldest entry when over the limit;
also returns the evicted keys. -/
def manageMemory (max : Nat) (l : List (Key × Wrapper)) :
    List (Key × Wrapper) × List Key :=
  if max < l.length then (l.drop 1, (l.take 1).map Prod.fst) else (l, [])

/-- The `while` loop closing `flash.set_multiple`: pop oldest until within
the limit; also returns the evicted keys. -/
def dropToMax (max : Nat) (l : List (Key × Wrapper)) :
    List (Key × Wrapper) × List Key :=
  (l.drop (l.length - max), (l.take (l.length - max)).map Prod.fst)

/-! ### Function-backed dictionaries -/

/-- Point update of a string-indexed dictionary. -/
def upd {α : Type} (f : String → α) (x : String) (a : α) : String → α :=
  fun y => if y = x then a else f y

/-- Point update of a doubly-indexed dictionary. -/
def upd2 {α : Type} (f : String → String → α) (x y : String) (a : α) :
    String → String → α :=
  fun x' y' => if x' = x ∧ y' = y then a else f x' y'

/-! ### Association-list lemmas -/

theorem odLookup_append (l₁ l₂ : List (Key × Wrapper)) (k : Key) :
    odLookup (l₁ ++ l₂) k =
      match odLookup l₁ k with
      | some w => some w
      | none => odLookup l₂ k := by
  induction l₁ with
  | nil => simp [odLookup]
  | cons p rest ih =>
      obtain ⟨k', w⟩ := p
      by_cases h : k' = k <;> simp [odLookup, h, ih]

theorem odLookup_erase_self (l : List (Key × Wrapper)) (k : Key) :
    odLookup (odErase l k) k = none := by
  induction l with
  | nil => simp [odErase, odLookup]
  | cons p rest ih =>
      obtain ⟨k', w⟩ := p
      by_cases h : k' = k <;> simp [odErase, odLookup, h, ih]

theorem odLookup_erase_ne (l : List (Key × Wrapper)) (k k' : Key)
    (h : k ≠ k') : odLookup (odErase l k') k = odLookup l k := by
  induction l with
  | nil => simp [odErase]
  | cons p rest ih =>
      obtain ⟨k₁, w⟩ := p
      by_cases h1 : k₁ = k'
      · subst h1
        simp [odErase, odLookup, Ne.symm h, ih]
      · simp [odErase, odLookup, h1, ih]

theorem odLookup_odSet_self (l : List (Key × Wrapper)) (k : Key) (w : Wrapper) :
    odLookup (odSet l k w) k = some w := by
  simp [odSet, odLookup_append, odLookup_erase_self, odLookup]

theorem odLookup_odSet_ne (l : List (Key × Wrapper)) (k k' : Key) (w : Wrapper)
    (h : k ≠ k') : odLookup (odSet l k' w) k = odLookup l k := by
  rw [odSet, odLookup_append, odLookup_erase_ne l k k' h]
  cases hl : odLookup l k with
  | some w' => rfl
  | none => simp [odLookup, Ne.symm h]

theorem odLookup_drop (l : List (Key × Wrapper)) (n : Nat) (k : Key)
    (h : k ∉ (l.take n).map Prod.fst) :
    odLookup (l.drop n) k = odLookup l k := by
  induction n generalizing l with
  | zero => simp
  | succ m ih =>
      cases l with
      | nil => simp
      | cons p rest =>
          obtain ⟨k', w⟩ := p
          simp only [List.take_succ_cons, List.map_cons, List.mem_cons] at h
          push_neg at h
          have hk : k' ≠ k := fun hk => h.1 hk.symm
          simp [odLookup, hk, ih rest h.2]

theorem odLookup_filterLive_of_live (now : Nat) (l : List (Key × Wrapper))
    (k : Key) (w : Wrapper) (hl : odLookup l k = some w)
    (hw : wExpired now w = false) :
    odLookup (odFilterLive now l) k = some w := by
  induction l with
  | nil => simp [odLookup] at hl
  | cons p rest ih =>
      obtain ⟨k', w'⟩ := p
      by_cases h : k' = k
      · simp [odLookup, h] at hl
        subst hl
        simp [odFilterLive, hw, odLookup, h]
      · simp [odLookup, h] at hl
        by_cases he : wExpired now w' = true
        · simp [odFilterLive, he, ih hl]
        · simp at he
          simp [odFilterLive, he, odLookup, h, ih hl]

theorem mem_odErase {l : List (Key × Wrapper)} {k k' : Key} {w : Wrapper}
    (h : (k', w) ∈ odErase l k) : (k', w) ∈ l ∧ k' ≠ k := by
  induction l with
  | nil => simp [odErase] at h
  | cons p rest ih =>
      obtain ⟨k₁, w₁⟩ := p
      by_cases h1 : k₁ = k
      · simp only [odErase, if_pos h1] at h
        exact ⟨List.mem_cons_of_mem _ (ih h).1, (ih h).2⟩
      · simp only [odErase, if_neg h1] at h
        rcases List.mem_cons.mp h with h2 | h2
        · obtain ⟨hk, hw⟩ := Prod.mk.injEq .. ▸ h2
          refine ⟨List.mem_cons.mpr (Or.inl h2), ?_⟩
          cases h2
          exact h1
        · exact ⟨List.mem_cons_of_mem _ (ih h2).1, (ih h2).2⟩

theorem odLookup_filterLive_none (now : Nat) (l : List (Key × Wrapper))
    (k : Key) (h : ∀ w, (k, w) ∈ l → wExpired now w = true) :
    odLookup (odFilterLive now l) k = none := by
  induction l with
  | nil => simp [odFilterLive, odLookup]
  | cons p rest ih =>
      obtain ⟨k', w'⟩ := p
      have hrest : ∀ w, (k, w) ∈ rest → wExpired now w = true := by
        intro w hw; exact h w (List.mem_cons_of_mem _ hw)
      by_cases hk : k' = k
      · subst hk
        have : wExpired now w' = true := h w' (List.mem_cons_self _ _)
        simp [odFilterLive, this, ih hrest]
      · by_cases he : wExpired now w' = true
        · simp [odFilterLive, he, ih hrest]
        · simp at he
          simp [odFilterLive, he, odLookup, hk, ih hrest]

theorem odLookup_eq_none_of_not_mem (l : List (Key × Wrapper)) (k : Key)
    (h : k ∉ l.map Prod.fst) : odLookup l k = none := by
  induction l with
  | nil => simp [odLookup]
  | cons p rest ih =>
      obtain ⟨k', w⟩ := p
      simp only [List.map_cons, List.mem_cons] at h
      push_neg at h
      have : k' ≠ k := fun hk => h.1 hk.symm
      simp [odLookup, this, ih h.2]

theorem odErase_of_not_mem (l : List (Key × Wrapper)) (k : Key)
    (h : k ∉ l.map Prod.fst) : odErase l k = l := by
  induction l with
  | nil => simp [odErase]
  | cons p rest ih =>
      obtain ⟨k', w⟩ := p
      simp only [List.map_cons, List.mem_cons] at h
      push_neg at h
      have : k' ≠ k := fun hk => h.1 hk.symm
      simp [odErase, this, ih h.2]

theorem upd_same {α : Type} (f : String → α) (x : String) (a : α) :
    upd f x a x = a := by simp [upd]

theorem upd_ne {α : Type} (f : String → α) (x y : String) (a : α)
    (h : y ≠ x) : upd f x a y = f y := by simp [upd, h]

theorem upd2_same {α : Type} (f : String → String → α) (x y : String) (a : α) :
    upd2 f x y a x y = a := by simp [upd2]

theorem upd2_ne {α : Type} (f : String → String → α) (x y x' y' : String)
    (a : α) (h : ¬(x' = x ∧ y' = y)) : upd2 f x y a x' y' = f x' y' := by
  simp [upd2, h]

/-! ### The single-file backend `Light` (system.py)

The sqlite file is modelled by `disk`; the read-through cache by `cache`
and the dirty sets by `dirty`.  The codec is abstracted at this level:
`disk` holds the deserialized image of each row (claim C9 treats the codec
itself).  Operations that validate the table name return `Except`. -/

structure LightSt where
  cache : Table → Key → Option BVal
  dirty : Table → Key → Bool
  disk : Table → Key → Option BVal

/-- Fresh `Light` instance over an empty file. -/
def lightEmpty : LightSt :=
  { cache := fun _ _ => none, dirty := fun _ _ => false,
    disk := fun _ _ => none }

/-- `Light.get_value`: validate, cache hit, else disk fetch populating the
cache, else Python `None` (modelled as `Option.none` in the result). -/
def lightGetE (st : LightSt) (t : Table) (k : Key) :
    Except Unit (Option BVal × LightSt) :=
  if validTable t then
    match st.cache t k with
    | some v => .ok (some v, st)
    | none =>
        match st.disk t k with
        | some v => .ok (some v, { st with cache := upd2 st.cache t k (some v) })
        | none => .ok (none, st)
  else .error ()

/-- `Light.check`: cache membership or a disk row, without deserializing. -/
def lightCheckE (st : LightSt) (t : Table) (k : Key) : Except Unit Bool :=
  if validTable t then
    .ok ((st.cache t k).isSome || (st.disk t k).isSome)
  else .error ()

/-- `Light.set_value`: cache the value and mark the key dirty; no disk IO. -/
def lightSetE (st : LightSt) (t : Table) (k : Key) (v : BVal) :
    Except Unit LightSt :=
  if validTable t then
    .ok { st with cache := upd2 st.cache t k (some v),
                  dirty := upd2 st.dirty t k true }
  else .error ()

/-- State change of `Light.delete`: drop the key from cache and dirty set
and delete the row immediately. -/
def lightDeleteCore (st : LightSt) (t : Table) (k : Key) : LightSt :=
  { cache := upd2 st.cache t k none,
    dirty := upd2 st.dirty t k false,
    disk := upd2 st.disk t k none }

/-- `Light.delete` with its table-name validation. -/
def lightDeleteE (st : LightSt) (t : Table) (k : Key) : Except Unit LightSt :=
  if validTable t then .ok (lightDeleteCore st t k) else .error ()

/-- Value component of `Light.get_value`. -/
def lightGetVal (st : LightSt) (t : Table) (k : Key) :
    Except Unit (Option BVal) :=
  (lightGetE st t k).map Prod.fst

/-- `Light.delete_multiple` applied pointwise to a set of (table, key)
pairs, as `flash.flush` does table by table: drop from cache and dirty set
and delete the rows.  The real call validates each table name and raises
on an invalid one, aborting the flush part-way; this pointwise form is
faithful only when every pending table name is valid, which the theorems
using `flashFlush` assume explicitly. -/
def lightDeleteBatch (st : LightSt) (toDel : Table → Key → Bool) : LightSt :=
  { cache := fun t k => if toDel t k then none else st.cache t k,
    dirty := fun t k => if toDel t k then false else st.dirty t k,
    disk := fun t k => if toDel t k then none else st.disk t k }

/-- `Light.set_multiple` applied pointwise to a dirty map of wrappers, as
`flash.flush` does table by table: update the cache and mark dirty.  As
with `lightDeleteBatch`, the real call validates each table name; the
pointwise form is faithful only when every pending table name is valid,
which the theorems using `flashFlush` assume explicitly. -/
def lightSetBatch (st : LightSt) (m : Table → Key → Option Wrapper) : LightSt :=
  { cache := fun t k =>
      match m t k with
      | some w => some (BVal.wrapped w)
      | none => st.cache t k,
    dirty := fun t k => (m t k).isSome || st.dirty t k,
    disk := st.disk }

/-- `Light.flush` (with `clear_cache = False`): for every dirty key still
present in the cache, upsert the serialized cached value; clear the dirty
sets; keep the cache. -/
def lightFlush (st : LightSt) : LightSt :=
  { cache := st.cache,
    dirty := fun _ _ => false,
    disk := fun t k =>
      if st.dirty t k then
        match st.cache t k with
        | some v => some v
        | none => st.disk t k
      else st.disk t k }

/-! ### The RAM cache tier `flash` (flash.py)

`memory` is the per-table recency map, `cacheF` the per-table dirty map
(`flash._cache`) and `deleted` the pending-deletion sets
(`flash._deleted`).  Middleware functions are pure here; watcher callbacks
cannot change this state and are treated in the dedicated claim-C8 model. -/

structure FSt where
  now : Nat
  maxKeys : Nat
  middleware : List (Key → PVal → PVal)
  memory : Table → List (Key × Wrapper)
  cacheF : Table → Key → Option Wrapper
  deleted : Table → Key → Bool
  db : LightSt

/-- Fresh `flash` instance over a fresh `Light` backend. -/
def flashInit (maxKeys : Nat) : FSt :=
  { now := 0, maxKeys := maxKeys, middleware := [],
    memory := fun _ => [],
    cacheF := fun _ _ => none,
    deleted := fun _ _ => false,
    db := lightEmpty }

/-- The middleware chain of `flash.set_value`: each middleware receives
`(key, value)` and feeds the next. -/
def applyMW : List (Key → PVal → PVal) → Key → PVal → PVal
  | [], _, v => v
  | f :: rest, k, v => applyMW rest k (f k v)

/-- `flash.delete`: pop from the recency map and the dirty map, record the
key in the pending-deletion set; the backend is not touched. -/
def flashDelete (s : FSt) (k : Key) (t : Table) : FSt :=
  { s with memory := upd s.memory t (odErase (s.memory t) k),
           cacheF := upd2 s.cacheF t k none,
           deleted := upd2 s.deleted t k true }

/-- `flash.set_value`, also returning the keys evicted by
`_manage_memory`: run middleware, wrap with the expiry, store in RAM, mark
dirty, discard any pending deletion, move to the tail, evict if over. -/
def flashSetEv (s : FSt) (k : Key) (v : PVal) (t : Table) (ttl : Option Nat) :
    FSt × List (Table × Key) :=
  let v' := applyMW s.middleware k v
  let w : Wrapper := ⟨v', mkExpiry s.now ttl⟩
  let p := manageMemory s.maxKeys (odSet (s.memory t) k w)
  ({ s with memory := upd s.memory t p.1,
            cacheF := upd2 s.cacheF t k (some w),
            deleted := upd2 s.deleted t k false },
   p.2.map (fun k' => (t, k')))

/-- `flash.set_value` (state part). -/
def flashSet (s : FSt) (k : Key) (v : PVal) (t : Table) (ttl : Option Nat) :
    FSt :=
  (flashSetEv s k v t ttl).1

/-- Loop body of `flash.set_multiple` over one table's recency map, dirty
map and pending-deletion set. -/
def smLoop (mws : List (Key → PVal → PVal)) (e : Option Nat) :
    List (Key × PVal) → List (Key × Wrapper) → (Key → Option Wrapper) →
      (Key → Bool) →
      List (Key × Wrapper) × (Key → Option Wrapper) × (Key → Bool)
  | [], mem, cf, dl => (mem, cf, dl)
  | (k, v) :: rest, mem, cf, dl =>
      let w : Wrapper := ⟨applyMW mws k v, e⟩
      smLoop mws e rest (odSet mem k w)
        (fun k' => if k' = k then some w else cf k')
        (fun k' => if k' = k then false else dl k')

/-- The effective `flash.set_multiple` (the later of the two definitions in
flash.py): one expiry for the batch, per-key middleware/store/dirty/undelete,
then evict oldest entries until within the limit. -/
def flashSetMulEv (s : FSt) (m : List (Key × PVal)) (t : Table)
    (ttl : Option Nat) : FSt × List (Table × Key) :=
  let e := mkExpiry s.now ttl
  let r := smLoop s.middleware e m (s.memory t) (fun k => s.cacheF t k)
    (fun k => s.deleted t k)
  let p := dropToMax s.maxKeys r.1
  ({ s with memory := upd s.memory t p.1,
            cacheF := upd s.cacheF t r.2.1,
            deleted := upd s.deleted t r.2.2 },
   p.2.map (fun k' => (t, k')))

/-- Conversion of a backend result in `flash.get_value`:
`raw if (isinstance(raw, dict) and "val" in raw) else (val: raw, ttl: None)`,
where an absent key surfaces as Python `None` and is wrapped likewise. -/
def wrapRaw : Option BVal → Wrapper
  | some (BVal.wrapped w) => w
  | some (BVal.raw v) => ⟨v, none⟩
  | none => ⟨PVal.vnone, none⟩

/-- `flash.get_value`, returning the value, the new state and the keys
evicted by `_manage_memory`: RAM hit, else lazy load from the backend
(wrapping raw or `None` results), then the TTL check which may delete, then
`move_to_end`; a backend exception returns the caller's default. -/
def flashGetEv (s : FSt) (k : Key) (t : Table) (d : PVal) :
    PVal × FSt × List (Table × Key) :=
  match odLookup (s.memory t) k with
  | some item =>
      if wExpired s.now item then (d, flashDelete s k t, [])
      else
        (item.val,
         { s with memory := upd s.memory t (odMoveToEnd (s.memory t) k) }, [])
  | none =>
      match lightGetE s.db t k with
      | .error _ => (d, s, [])
      | .ok (raw, db') =>
          let item : Wrapper := wrapRaw raw
          let p := manageMemory s.maxKeys (odSet (s.memory t) k item)
          let s1 : FSt := { s with db := db', memory := upd s.memory t p.1 }
          if wExpired s.now item then
            (d, flashDelete s1 k t, p.2.map (fun k' => (t, k')))
          else
            (item.val,
             { s1 with memory := upd s1.memory t (odMoveToEnd p.1 k) },
             p.2.map (fun k' => (t, k')))

/-- `flash.check`: RAM membership, else the backend's `check`. -/
def flashCheck (s : FSt) (k : Key) (t : Table) : Except Unit Bool :=
  if (odLookup (s.memory t) k).isSome then .ok true
  else lightCheckE s.db t k

/-- `flash.flush`: forward every pending deletion to the backend's
`delete_multiple`, forward every dirty wrapper to the backend's
`set_multiple`, call the backend's `flush`, and clear both trackers.
The backend calls validate table names and the real flush raises on the
first invalid pending table, so this total model is faithful exactly on
states whose pending tables all have valid names. -/
def flashFlush (s : FSt) : FSt :=
  let db1 := lightDeleteBatch s.db s.deleted
  let db2 := lightSetBatch db1 s.cacheF
  { s with db := lightFlush db2,
           cacheF := fun _ _ => none,
           deleted := fun _ _ => false }

/-- One wake of the background TTL monitor (`flash._start_ttl_monitor`):
delete, via the delete path, every resident entry whose expiry has passed. -/
def sweepStep (s : FSt) : FSt :=
  let expiredIn : Table → Key → Bool := fun t k =>
    match odLookup (s.memory t) k with
    | some w => wExpired s.now w
    | none => false
  { s with memory := fun t => odFilterLive s.now (s.memory t),
           cacheF := fun t k => if expiredIn t k then none else s.cacheF t k,
           deleted := fun t k => s.deleted t k || expiredIn t k }

/-! ### Operation traces over one `flash` instance -/

inductive Op where
  | set (k : Key) (v : PVal) (t : Table) (ttl : Option Nat)
  | setMul (m : List (Key × PVal)) (t : Table) (ttl : Option Nat)
  | get (k : Key) (t : Table)
  | del (k : Key) (t : Table)
  | flush
  | sweep
  | tick (dt : Nat)

/-- One public operation, also reporting the keys it evicted from RAM.
The default argument of `get` does not influence the successor state. -/
def stepEv (s : FSt) : Op → FSt × List (Table × Key)
  | .set k v t ttl => flashSetEv s k v t ttl
  | .setMul m t ttl => flashSetMulEv s m t ttl
  | .get k t => ((flashGetEv s k t PVal.vnone).2.1, (flashGetEv s k t PVal.vnone).2.2)
  | .del k t => (flashDelete s k t, [])
  | .flush => (flashFlush s, [])
  | .sweep => (sweepStep s, [])
  | .tick dt => ({ s with now := s.now + dt }, [])

def step (s : FSt) (op : Op) : FSt := (stepEv s op).1

def runOps (s : FSt) (ops : List Op) : FSt := ops.foldl step s

/-- All keys evicted anywhere along a trace. -/
def runEv (s : FSt) : List Op → List (Table × Key)
  | [] => []
  | op :: rest => (stepEv s op).2 ++ runEv (step s op) rest

/-- Does an operation write or delete the given (table, key) pair? -/
def touchesB (op : Op) (t : Table) (k : Key) : Bool :=
  match op with
  | .set k' _ t' _ => decide (t' = t) && decide (k' = k)
  | .setMul m t' _ => decide (t' = t) && decide (k ∈ m.map Prod.fst)
  | .del k' t' => decide (t' = t) && decide (k' = k)
  | _ => false

/-- Still-live test for an optional absolute expiry at a given time. -/
def liveB (e : Option Nat) (n : Nat) : Bool :=
  match e with
  | none => true
  | some ex => decide (n ≤ ex)

theorem not_mem_fst_odErase (l : List (Key × Wrapper)) (k : Key) :
    k ∉ (odErase l k).map Prod.fst := by
  induction l with
  | nil => simp [odErase]
  | cons p rest ih =>
      obtain ⟨k', w⟩ := p
      by_cases h : k' = k
      · simpa [odErase, h] using ih
      · simp only [odErase, if_neg h, List.map_cons, List.mem_cons]
        push_neg
        exact ⟨fun hk => h hk.symm, ih⟩

/-- A key freshly moved to the tail survives `_manage_memory` whenever the
key budget is at least one. -/
theorem odLookup_manage_self (max : Nat) (hmax : 1 ≤ max)
    (l : List (Key × Wrapper)) (k : Key) (w : Wrapper) :
    odLookup (manageMemory max (odSet l k w)).1 k = some w := by
  by_cases h : max < (odSet l k w).length
  · cases he : odErase l k with
    | nil =>
        exfalso
        have hlen : (odSet l k w).length = 1 := by simp [odSet, he]
        rw [hlen] at h
        omega
    | cons p rest =>
        have hset : odSet l k w = p :: (rest ++ [(k, w)]) := by
          simp [odSet, he]
        have hrest : odLookup rest k = none := by
          apply odLookup_eq_none_of_not_mem
          intro hk
          apply not_mem_fst_odErase l k
          rw [he]
          simp only [List.map_cons, List.mem_cons]
          exact Or.inr hk
        rw [hset] at h
        simp only [manageMemory, hset, if_pos h, List.drop_succ_cons,
          List.drop_zero]
        rw [odLookup_append, hrest]
        simp [odLookup]
  · simp only [manageMemory, if_neg h]
    exact odLookup_odSet_self l k w

/-! ### Claim C7: a get whose key is absent everywhere -/

/-- Claim C7, counterexample: on a fresh instance, `get_value` of an absent
key with caller default `7` returns `None`, not the caller's default — the
code returns `item["val"]` of the `None` wrapper it builds, and only the
exception path returns `default`. -/
theorem c7_counterexample :
    (flashGetEv (flashInit 100) "k" "storage" (PVal.vint 7)).1 = PVal.vnone ∧
    PVal.vnone ≠ PVal.vint 7 := by
  constructor
  · rfl
  · decide

/-- Helper: a get that misses RAM, backend cache and backend disk yields
`None`, independently of the caller's default.  The key-budget bound
keeps the final `move_to_end` on a present key (at `max_keys = 0` the
real program raises `KeyError` here instead). -/
theorem flashGet_miss_vnone (s : FSt) (k : Key) (t : Table) (d : PVal)
    (hmax : 1 ≤ s.maxKeys)
    (hv : validTable t = true)
    (hm : odLookup (s.memory t) k = none)
    (hc : s.db.cache t k = none)
    (hd : s.db.disk t k = none) :
    (flashGetEv s k t d).1 = PVal.vnone := by
  simp [flashGetEv, hm, lightGetE, hv, hc, hd, wExpired, wrapRaw]

/-- Claim C7 (amended): with a key budget of at least one, a
`flash.get_value` miss whose key is also absent from the backend (cache
and disk) returns `None` — the Python default of the `default` parameter
— rather than the caller-supplied default; the caller's default is only
produced by the exception path or the TTL path.  (At `max_keys = 0` with
an empty table the freshly inserted `None` wrapper is immediately evicted
and `move_to_end` raises an uncaught `KeyError` instead.) -/
theorem c7_miss_returns_none (s : FSt) (k : Key) (t : Table) (d : PVal)
    (hmax : 1 ≤ s.maxKeys)
    (hv : validTable t = true)
    (hm : odLookup (s.memory t) k = none)
    (hc : s.db.cache t k = none)
    (hd : s.db.disk t k = none) :
    (flashGetEv s k t d).1 = PVal.vnone :=
  flashGet_miss_vnone s k t d hmax hv hm hc hd

theorem c7_miss_returns_none_witness :
    1 ≤ (flashInit 100).maxKeys ∧ validTable "storage" = true ∧
    (flashGetEv (flashInit 100) "k" "storage" (PVal.vint 7)).1 = PVal.vnone :=
  ⟨by decide, by decide,
   c7_miss_returns_none (flashInit 100) "k" "storage" (PVal.vint 7)
     (by decide) (by decide) (by rfl) (by rfl) (by rfl)⟩

/-! ### Claim C10: the miss path inserts a `None` wrapper -/

/-- Claim C10: a `get_value` whose key is absent from the recency map and
from the Backend inserts the wrapper with value `None` into the recency map,
so an immediately following `check` of the never-written key returns true. -/
theorem c10_get_miss_caches_none (s : FSt) (k : Key) (t : Table) (d : PVal)
    (hv : validTable t = true)
    (hm : odLookup (s.memory t) k = none)
    (hc : s.db.cache t k = none)
    (hd : s.db.disk t k = none)
    (hmax : 1 ≤ s.maxKeys) :
    odLookup ((flashGetEv s k t d).2.1.memory t) k =
      some ⟨PVal.vnone, none⟩ ∧
    flashCheck (flashGetEv s k t d).2.1 k t = Except.ok true := by
  have hstep : odLookup ((flashGetEv s k t d).2.1.memory t) k =
      some ⟨PVal.vnone, none⟩ := by
    have hp : odLookup
        (manageMemory s.maxKeys (odSet (s.memory t) k ⟨PVal.vnone, none⟩)).1 k =
        some ⟨PVal.vnone, none⟩ :=
      odLookup_manage_self s.maxKeys hmax (s.memory t) k ⟨PVal.vnone, none⟩
    simp [flashGetEv, hm, lightGetE, hv, hc, hd, wExpired, wrapRaw, upd_same,
      odMoveToEnd, hp, odLookup_odSet_self]
  refine ⟨hstep, ?_⟩
  simp [flashCheck, hstep]

theorem c10_get_miss_caches_none_witness :
    validTable "storage" = true ∧ 1 ≤ (flashInit 100).maxKeys ∧
    (odLookup ((flashGetEv (flashInit 100) "k" "storage" PVal.vnone).2.1.memory
        "storage") "k" = some ⟨PVal.vnone, none⟩ ∧
     flashCheck (flashGetEv (flashInit 100) "k" "storage" PVal.vnone).2.1 "k"
        "storage" = Except.ok true) :=
  ⟨by decide, by decide,
   c10_get_miss_caches_none (flashInit 100) "k" "storage" PVal.vnone
     (by decide) (by rfl) (by rfl) (by rfl) (by decide)⟩

/-! ### Claim C2: deletion semantics -/

/-- Claim C2, counterexample: write a key, flush, then delete it.  Before
the deletion itself is flushed, `check` still reports true (the backend
cache still holds the row) and `get_value` still returns the old value —
contradicting "subsequent check returns false and get returns the caller's
default, both before and after flush". -/
theorem c2_counterexample :
    flashCheck (flashDelete (flashFlush (flashSet (flashInit 100) "k"
        (PVal.vint 5) "storage" none)) "k" "storage") "k" "storage" =
      Except.ok true ∧
    (flashGetEv (flashDelete (flashFlush (flashSet (flashInit 100) "k"
        (PVal.vint 5) "storage" none)) "k" "storage") "k" "storage"
        PVal.vnone).1 = PVal.vint 5 ∧
    PVal.vint 5 ≠ PVal.vnone := by
  refine ⟨by rfl, by rfl, by decide⟩

/-- Claim C2 (amended): deleting a key removes it from the RAM tier at
once, but the backend only forgets it when the deletion is flushed: after
`delete` followed by `flush`, `check` returns false and `get` returns
`None` (not the caller-supplied default).  At the single-file tier, whose
`delete` is immediate, `check` returns false and `get` returns `None`
directly.  Before the flush a previously flushed value may still be
served, as the counterexample shows.  The flash-tier part assumes a key
budget of at least one (at `max_keys = 0` the re-read raises `KeyError`
at `move_to_end`) and that every table name with a pending deletion or a
dirty entry is valid — otherwise the real `flush` raises `ValueError` at
the first invalid pending table and aborts before forwarding the rest. -/
theorem c2_delete_semantics :
    (∀ (s : FSt) (k : Key) (t : Table) (d : PVal), 1 ≤ s.maxKeys →
      (∀ t' k', s.deleted t' k' = true → validTable t' = true) →
      (∀ t' k', (s.cacheF t' k').isSome = true → validTable t' = true) →
      validTable t = true →
      flashCheck (flashFlush (flashDelete s k t)) k t = Except.ok false ∧
      (flashGetEv (flashFlush (flashDelete s k t)) k t d).1 = PVal.vnone) ∧
    (∀ (st : LightSt) (t : Table) (k : Key), validTable t = true →
      lightCheckE (lightDeleteCore st t k) t k = Except.ok false ∧
      lightGetVal (lightDeleteCore st t k) t k = Except.ok none) := by
  constructor
  · intro s k t d hmax hdelv hcfv hv
    have hmem : odLookup ((flashFlush (flashDelete s k t)).memory t) k =
        none := by
      simp [flashFlush, flashDelete, upd_same, odLookup_erase_self]
    have hcache : (flashFlush (flashDelete s k t)).db.cache t k = none := by
      simp [flashFlush, flashDelete, lightFlush, lightSetBatch,
        lightDeleteBatch, upd2]
    have hdisk : (flashFlush (flashDelete s k t)).db.disk t k = none := by
      simp [flashFlush, flashDelete, lightFlush, lightSetBatch,
        lightDeleteBatch, upd2]
    constructor
    · simp [flashCheck, hmem, lightCheckE, hv, hcache, hdisk]
    · simp [flashGetEv, hmem, lightGetE, hv, hcache, hdisk, wExpired,
        wrapRaw]
  · intro st t k hv
    constructor
    · simp [lightCheckE, hv, lightDeleteCore, upd2]
    · simp [lightGetVal, lightGetE, hv, lightDeleteCore, upd2, Except.map]

theorem c2_delete_semantics_witness :
    1 ≤ (flashInit 100).maxKeys ∧ validTable "storage" = true ∧
    (flashCheck (flashFlush (flashDelete (flashInit 100) "k" "storage")) "k"
        "storage" = Except.ok false ∧
     (flashGetEv (flashFlush (flashDelete (flashInit 100) "k" "storage")) "k"
        "storage" (PVal.vint 7)).1 = PVal.vnone) :=
  ⟨by decide, by decide,
   c2_delete_semantics.1 (flashInit 100) "k" "storage" (PVal.vint 7)
     (by decide) (fun t' k' h => Bool.noConfusion h)
     (fun t' k' h => Bool.noConfusion h) (by decide)⟩

/-! ### Claim C6: LRU eviction at the key budget -/

/-- Sequence of `set_value` calls on a fresh instance with key budget N. -/
def writeSeq (N : Nat) (ks : List Key) (t : Table) (v : PVal) : FSt :=
  ks.foldl (fun s k => flashSet s k v t none) (flashInit N)

theorem flashSet_fields (s : FSt) (k : Key) (v : PVal) (t : Table)
    (ttl : Option Nat) :
    (flashSet s k v t ttl).maxKeys = s.maxKeys ∧
    (flashSet s k v t ttl).middleware = s.middleware ∧
    (flashSet s k v t ttl).now = s.now :=
  ⟨rfl, rfl, rfl⟩

/-- A `set_value` of a fresh key within the budget appends at the tail. -/
theorem flashSet_memory_fresh (s : FSt) (k : Key) (v : PVal) (t : Table)
    (hmw : s.middleware = [])
    (hfresh : k ∉ (s.memory t).map Prod.fst)
    (hcap : (s.memory t).length + 1 ≤ s.maxKeys) :
    (flashSet s k v t none).memory t =
      s.memory t ++ [(k, (⟨v, none⟩ : Wrapper))] := by
  have hlen : ¬ s.maxKeys < (s.memory t).length + 1 := by omega
  simp [flashSet, flashSetEv, hmw, applyMW, mkExpiry, odSet,
    odErase_of_not_mem _ _ hfresh, manageMemory, hlen, upd_same]

/-- A `set_value` of a fresh key one past the budget appends at the tail
and pops the head. -/
theorem flashSet_memory_overflow (s : FSt) (k : Key) (v : PVal) (t : Table)
    (hmw : s.middleware = [])
    (hfresh : k ∉ (s.memory t).map Prod.fst)
    (hcap : s.maxKeys < (s.memory t).length + 1) :
    (flashSet s k v t none).memory t =
      (s.memory t ++ [(k, (⟨v, none⟩ : Wrapper))]).drop 1 := by
  simp [flashSet, flashSetEv, hmw, applyMW, mkExpiry, odSet,
    odErase_of_not_mem _ _ hfresh, manageMemory, hcap, upd_same]

/-- Writing fresh, distinct keys within the budget appends them in order. -/
theorem writeRun_memory (t : Table) (v : PVal) (ks : List Key) :
    ∀ s : FSt, s.middleware = [] →
      (∀ k ∈ ks, k ∉ (s.memory t).map Prod.fst) → ks.Nodup →
      (s.memory t).length + ks.length ≤ s.maxKeys →
      (ks.foldl (fun s' k => flashSet s' k v t none) s).memory t =
          s.memory t ++ ks.map (fun k => (k, (⟨v, none⟩ : Wrapper))) ∧
        (ks.foldl (fun s' k => flashSet s' k v t none) s).maxKeys =
          s.maxKeys ∧
        (ks.foldl (fun s' k => flashSet s' k v t none) s).middleware =
          s.middleware := by
  induction ks with
  | nil => intro s _ _ _ _; simp
  | cons k rest ih =>
      intro s hmw hfresh hnd hcap
      obtain ⟨hknr, hndr⟩ := List.nodup_cons.mp hnd
      have hf : k ∉ (s.memory t).map Prod.fst := hfresh k (by simp)
      have hcap1 : (s.memory t).length + 1 ≤ s.maxKeys := by
        simp only [List.length_cons] at hcap
        omega
      have hmem1 : (flashSet s k v t none).memory t =
          s.memory t ++ [(k, (⟨v, none⟩ : Wrapper))] :=
        flashSet_memory_fresh s k v t hmw hf hcap1
      have hfields := flashSet_fields s k v t none
      have hfresh' : ∀ k' ∈ rest,
          k' ∉ ((flashSet s k v t none).memory t).map Prod.fst := by
        intro k' hk'
        rw [hmem1]
        simp only [List.map_append, List.mem_append, List.map_cons,
          List.map_nil, List.mem_singleton]
        push_neg
        refine ⟨hfresh k' (List.mem_cons_of_mem _ hk'), ?_⟩
        intro hkk
        exact hknr (hkk ▸ hk')
      have hcap' : ((flashSet s k v t none).memory t).length + rest.length ≤
          (flashSet s k v t none).maxKeys := by
        rw [hmem1, hfields.1]
        simp only [List.length_append, List.length_singleton,
          List.length_cons, List.length_nil] at hcap ⊢
        omega
      have hmw' : (flashSet s k v t none).middleware = [] := by
        rw [hfields.2.1, hmw]
      obtain ⟨h1, h2, h3⟩ := ih (flashSet s k v t none) hmw' hfresh' hndr hcap'
      refine ⟨?_, ?_, ?_⟩
      · rw [List.foldl_cons, h1, hmem1]
        simp
      · rw [List.foldl_cons, h2, hfields.1]
      · rw [List.foldl_cons, h3, hfields.2.1]

theorem map_fst_selfmap (ks : List Key) (w : Wrapper) :
    (ks.map (fun k => (k, w))).map Prod.fst = ks := by
  induction ks with
  | nil => simp
  | cons k rest ih => simp [ih]

theorem odLookup_selfmap (ks : List Key) (w : Wrapper) (k : Key)
    (h : k ∈ ks) : odLookup (ks.map (fun k' => (k', w))) k = some w := by
  induction ks with
  | nil => simp at h
  | cons k' rest ih =>
      by_cases hk : k' = k
      · simp [odLookup, hk]
      · have : k ∈ rest := by
          rcases List.mem_cons.mp h with h1 | h1
          · exact absurd h1.symm hk
          · exact h1
        simp [odLookup, hk, ih this]

/-- Claim C6: with `max_keys = N`, writing N+1 distinct keys into one
table leaves exactly N resident entries, the first-written
(least-recently-touched) key being the one evicted and every other key
still present. -/
theorem c6_lru_eviction (N : Nat) (k₀ : Key) (rest : List Key) (t : Table)
    (v : PVal) (hnd : (k₀ :: rest).Nodup) (hlen : rest.length = N) :
    (writeSeq N (k₀ :: rest) t v).memory t =
        rest.map (fun k => (k, (⟨v, none⟩ : Wrapper))) ∧
      ((writeSeq N (k₀ :: rest) t v).memory t).length = N ∧
      odLookup ((writeSeq N (k₀ :: rest) t v).memory t) k₀ = none ∧
      ∀ k ∈ rest, odLookup ((writeSeq N (k₀ :: rest) t v).memory t) k =
        some ⟨v, none⟩ := by
  obtain ⟨hk0r, hndr⟩ := List.nodup_cons.mp hnd
  have hmain : (writeSeq N (k₀ :: rest) t v).memory t =
      rest.map (fun k => (k, (⟨v, none⟩ : Wrapper))) := by
    rcases List.eq_nil_or_concat rest with hre | ⟨ys, y, hre⟩
    · subst hre
      simp only [List.length_nil] at hlen
      subst hlen
      have hover := flashSet_memory_overflow (flashInit 0) k₀ v t rfl
        (by simp [flashInit]) (by simp [flashInit])
      simpa [writeSeq, flashInit] using hover
    · rw [List.concat_eq_append] at hre
      subst hre
      have hys : ys.length + 1 = N := by
        simpa using hlen
      have hstep1 : (flashSet (flashInit N) k₀ v t none).memory t =
          [(k₀, (⟨v, none⟩ : Wrapper))] := by
        have := flashSet_memory_fresh (flashInit N) k₀ v t rfl
          (by simp [flashInit]) (by simp [flashInit]; omega)
        simpa [flashInit] using this
      have hndys : ys.Nodup := (List.nodup_append.mp hndr).1
      have hyys : y ∉ ys := by
        have := List.nodup_append.mp hndr
        intro hy
        exact this.2.2 hy (List.mem_singleton_self y)
      have hfreshys : ∀ k ∈ ys,
          k ∉ ((flashSet (flashInit N) k₀ v t none).memory t).map Prod.fst := by
        intro k hk
        rw [hstep1]
        simp only [List.map_cons, List.map_nil, List.mem_singleton]
        intro hkk
        apply hk0r
        rw [← hkk]
        exact List.mem_append_left _ hk
      have hcapys : ((flashSet (flashInit N) k₀ v t none).memory t).length +
          ys.length ≤ (flashSet (flashInit N) k₀ v t none).maxKeys := by
        rw [hstep1, (flashSet_fields (flashInit N) k₀ v t none).1]
        simp [flashInit]
        omega
      obtain ⟨hmemys, hmaxys, hmwys⟩ := writeRun_memory t v ys
        (flashSet (flashInit N) k₀ v t none) rfl hfreshys hndys hcapys
      have hmid : (ys.foldl (fun s' k => flashSet s' k v t none)
          (flashSet (flashInit N) k₀ v t none)).memory t =
          (k₀ :: ys).map (fun k => (k, (⟨v, none⟩ : Wrapper))) := by
        rw [hmemys, hstep1]
        simp
      have hfreshy : y ∉ ((ys.foldl (fun s' k => flashSet s' k v t none)
          (flashSet (flashInit N) k₀ v t none)).memory t).map Prod.fst := by
        rw [hmid, map_fst_selfmap]
        simp only [List.mem_cons]
        push_neg
        refine ⟨?_, hyys⟩
        intro hyk
        exact hk0r (hyk ▸ List.mem_append_right _ (List.mem_singleton_self y))
      have hcapy : (ys.foldl (fun s' k => flashSet s' k v t none)
            (flashSet (flashInit N) k₀ v t none)).maxKeys <
          ((ys.foldl (fun s' k => flashSet s' k v t none)
            (flashSet (flashInit N) k₀ v t none)).memory t).length + 1 := by
        rw [hmid, hmaxys, (flashSet_fields (flashInit N) k₀ v t none).1]
        simp [flashInit]
        omega
      have hmwmid : (ys.foldl (fun s' k => flashSet s' k v t none)
          (flashSet (flashInit N) k₀ v t none)).middleware = [] := by
        rw [hmwys]
        exact (flashSet_fields (flashInit N) k₀ v t none).2.1
      have hfinal := flashSet_memory_overflow _ y v t hmwmid hfreshy hcapy
      have : (writeSeq N (k₀ :: (ys ++ [y])) t v).memory t =
          ((ys.foldl (fun s' k => flashSet s' k v t none)
            (flashSet (flashInit N) k₀ v t none)).memory t ++
            [(y, (⟨v, none⟩ : Wrapper))]).drop 1 := by
        rw [writeSeq, List.foldl_cons, List.foldl_append]
        simpa using hfinal
      rw [this, hmid]
      simp
  refine ⟨hmain, ?_, ?_, ?_⟩
  · rw [hmain]
    simp [hlen]
  · rw [hmain]
    apply odLookup_eq_none_of_not_mem
    rw [map_fst_selfmap]
    exact hk0r
  · intro k hk
    rw [hmain]
    exact odLookup_selfmap rest _ k hk

/-! ### Claim C5: TTL expiry -/

/-- Any `set_value` with key budget at least one leaves its wrapper
resident and retrievable in RAM. -/
theorem flashSet_lookup (s : FSt) (k : Key) (v : PVal) (t : Table)
    (ttl : Option Nat) (hmax : 1 ≤ s.maxKeys) :
    odLookup ((flashSet s k v t ttl).memory t) k =
      some ⟨applyMW s.middleware k v, mkExpiry s.now ttl⟩ := by
  simp only [flashSet, flashSetEv, upd_same]
  exact odLookup_manage_self s.maxKeys hmax _ _ _

theorem mem_manage_subset (max : Nat) (l : List (Key × Wrapper))
    (p : Key × Wrapper) (h : p ∈ (manageMemory max l).1) : p ∈ l := by
  unfold manageMemory at h
  by_cases hc : max < l.length
  · simp only [if_pos hc] at h
    exact List.drop_subset _ _ h
  · simpa only [if_neg hc] using h

/-- Every binding of the freshly written key in the post-`set_value`
recency map carries the wrapper written by that `set_value`. -/
theorem mem_flashSet_val (s : FSt) (k : Key) (v : PVal) (t : Table)
    (ttl : Option Nat) (w' : Wrapper)
    (h : (k, w') ∈ (flashSet s k v t ttl).memory t) :
    w' = ⟨applyMW s.middleware k v, mkExpiry s.now ttl⟩ := by
  have h' : (k, w') ∈ (manageMemory s.maxKeys
      (odSet (s.memory t) k
        ⟨applyMW s.middleware k v, mkExpiry s.now ttl⟩)).1 := by
    simpa [flashSet, flashSetEv, upd_same] using h
  have h2 := mem_manage_subset _ _ _ h'
  rw [odSet] at h2
  rcases List.mem_append.mp h2 with h3 | h3
  · exact absurd rfl (mem_odErase h3).2
  · simpa using h3

/-- Claim C5, counterexample: write `k` with `ttl = 1`, let 2 time units
pass, let the background sweep run, then `get` with caller default `7`:
the result is `None`, not the caller's default — the sweep removed the
never-flushed entry, so the read misses RAM and the backend and falls into
the `None`-wrapper path rather than the TTL path. -/
theorem c5_counterexample :
    (flashGetEv (runOps (flashInit 100)
        [Op.set "k" (PVal.vint 5) "storage" (some 1), Op.tick 2, Op.sweep])
        "k" "storage" (PVal.vint 7)).1 = PVal.vnone ∧
    PVal.vnone ≠ PVal.vint 7 := ⟨by rfl, by decide⟩

/-- Claim C5 (amended): for a key written with `ttl = T` (no middleware,
key budget at least one), a read `dt ≤ T` time units later returns the
written value; a read `dt > T` units later that finds the entry still
resident discovers the expiry and returns the caller's default; and once
the background sweep has removed the expired, never-flushed entry, a read
returns `None` rather than the caller's default.  In no case is the
expired value itself returned. -/
theorem c5_ttl_semantics :
    (∀ (s : FSt) (k : Key) (v : PVal) (t : Table) (T dt : Nat) (d : PVal),
      s.middleware = [] → 1 ≤ s.maxKeys → dt ≤ T →
      (flashGetEv { flashSet s k v t (some T) with now := s.now + dt }
          k t d).1 = v) ∧
    (∀ (s : FSt) (k : Key) (v : PVal) (t : Table) (T dt : Nat) (d : PVal),
      s.middleware = [] → 1 ≤ s.maxKeys → 0 < T → T < dt →
      (flashGetEv { flashSet s k v t (some T) with now := s.now + dt }
          k t d).1 = d) ∧
    (∀ (s : FSt) (k : Key) (v : PVal) (t : Table) (T dt : Nat) (d : PVal),
      s.middleware = [] → 1 ≤ s.maxKeys → 0 < T → T < dt →
      s.db.cache t k = none → s.db.disk t k = none → validTable t = true →
      (flashGetEv (sweepStep { flashSet s k v t (some T) with
          now := s.now + dt }) k t d).1 = PVal.vnone) := by
  refine ⟨?_, ?_, ?_⟩
  · intro s k v t T dt d hmw hmax hdt
    have hlook : odLookup ((flashSet s k v t (some T)).memory t) k =
        some ⟨v, mkExpiry s.now (some T)⟩ := by
      simpa [hmw, applyMW] using flashSet_lookup s k v t (some T) hmax
    have hexp : wExpired (s.now + dt)
        ⟨v, mkExpiry s.now (some T)⟩ = false := by
      by_cases hT : T = 0
      · simp [wExpired, mkExpiry, hT]
      · simp only [wExpired, mkExpiry, if_neg hT]
        simp
        omega
    simp [flashGetEv, hlook, hexp]
  · intro s k v t T dt d hmw hmax hT hdt
    have hlook : odLookup ((flashSet s k v t (some T)).memory t) k =
        some ⟨v, mkExpiry s.now (some T)⟩ := by
      simpa [hmw, applyMW] using flashSet_lookup s k v t (some T) hmax
    have hexp : wExpired (s.now + dt)
        ⟨v, mkExpiry s.now (some T)⟩ = true := by
      have hT0 : ¬ T = 0 := by omega
      simp only [wExpired, mkExpiry, if_neg hT0]
      simp
      omega
    simp [flashGetEv, hlook, hexp]
  · intro s k v t T dt d hmw hmax hT hdt hc hd hv
    have hT0 : ¬ T = 0 := by omega
    have hexp : wExpired (s.now + dt)
        ⟨v, mkExpiry s.now (some T)⟩ = true := by
      simp only [wExpired, mkExpiry, if_neg hT0]
      simp
      omega
    have hnone : odLookup ((sweepStep { flashSet s k v t (some T) with
        now := s.now + dt }).memory t) k = none := by
      apply odLookup_filterLive_none
      intro w' hw'
      have hval : w' = ⟨applyMW s.middleware k v, mkExpiry s.now (some T)⟩ :=
        mem_flashSet_val s k v t (some T) w' hw'
      rw [hval, hmw]
      exact hexp
    have hdb : (sweepStep { flashSet s k v t (some T) with
        now := s.now + dt }).db = s.db := rfl
    exact flashGet_miss_vnone _ k t d hmax hv hnone (by rw [hdb]; exact hc)
      (by rw [hdb]; exact hd)

theorem c5_ttl_semantics_witness :
    (flashGetEv { flashSet (flashInit 100) "k" (PVal.vint 5) "storage"
        (some 10) with now := 3 } "k" "storage" PVal.vnone).1 = PVal.vint 5 ∧
    (flashGetEv { flashSet (flashInit 100) "k" (PVal.vint 5) "storage"
        (some 10) with now := 11 } "k" "storage" (PVal.vint 7)).1 =
      PVal.vint 7 ∧
    (flashGetEv (sweepStep { flashSet (flashInit 100) "k" (PVal.vint 5)
        "storage" (some 1) with now := 2 }) "k" "storage"
        (PVal.vint 7)).1 = PVal.vnone :=
  ⟨c5_ttl_semantics.1 (flashInit 100) "k" (PVal.vint 5) "storage" 10 3
      PVal.vnone rfl (by decide) (by decide),
   c5_ttl_semantics.2.1 (flashInit 100) "k" (PVal.vint 5) "storage" 10 11
      (PVal.vint 7) rfl (by decide) (by decide) (by decide),
   c5_ttl_semantics.2.2 (flashInit 100) "k" (PVal.vint 5) "storage" 1 2
      (PVal.vint 7) rfl (by decide) (by decide) (by decide) rfl rfl
      (by decide)⟩

/-! ### Claim C1: written values and subsequent gets, across traces -/

theorem odLookup_manage_preserved (max : Nat) (l : List (Key × Wrapper))
    (k : Key) (w : Wrapper) (hI : odLookup l k = some w)
    (hev : k ∉ (manageMemory max l).2) :
    odLookup (manageMemory max l).1 k = some w := by
  unfold manageMemory at hev ⊢
  by_cases hc : max < l.length
  · simp only [if_pos hc] at hev ⊢
    rw [odLookup_drop l 1 k hev]
    exact hI
  · simpa only [if_neg hc] using hI

theorem odLookup_dropToMax_preserved (max : Nat) (l : List (Key × Wrapper))
    (k : Key) (w : Wrapper) (hI : odLookup l k = some w)
    (hev : k ∉ (dropToMax max l).2) :
    odLookup (dropToMax max l).1 k = some w := by
  unfold dropToMax at hev ⊢
  rw [odLookup_drop l _ k hev]
  exact hI

theorem odLookup_moveToEnd_ne (l : List (Key × Wrapper)) (k k' : Key)
    (h : k ≠ k') : odLookup (odMoveToEnd l k') k = odLookup l k := by
  unfold odMoveToEnd
  cases hl : odLookup l k' with
  | some w' => rw [odLookup_odSet_ne l k k' w' h]
  | none => rfl

theorem odLookup_moveToEnd_self (l : List (Key × Wrapper)) (k : Key)
    (w : Wrapper) (h : odLookup l k = some w) :
    odLookup (odMoveToEnd l k) k = some w := by
  unfold odMoveToEnd
  rw [h, odLookup_odSet_self]

theorem liveB_mono (e : Option Nat) (n n' : Nat) (h : n ≤ n')
    (hl : liveB e n' = true) : liveB e n = true := by
  cases e with
  | none => rfl
  | some ex =>
      simp only [liveB, decide_eq_true_eq] at hl ⊢
      omega

theorem liveB_not_expired (w : Wrapper) (n : Nat)
    (hl : liveB w.ttl n = true) : wExpired n w = false := by
  cases hw : w.ttl with
  | none => simp [wExpired, hw]
  | some ex =>
      rw [hw] at hl
      simp only [liveB, decide_eq_true_eq] at hl
      simp only [wExpired, hw, decide_eq_false_iff_not]
      omega

/-- Branch equation: RAM hit on an expired entry. -/
theorem flashGetEv_eq_hit_expired (s : FSt) (k' : Key) (t' : Table)
    (d : PVal) (item : Wrapper) (hl : odLookup (s.memory t') k' = some item)
    (he : wExpired s.now item = true) :
    flashGetEv s k' t' d = (d, flashDelete s k' t', []) := by
  simp [flashGetEv, hl, he]

/-- Branch equation: RAM hit on a live entry. -/
theorem flashGetEv_eq_hit_live (s : FSt) (k' : Key) (t' : Table) (d : PVal)
    (item : Wrapper) (hl : odLookup (s.memory t') k' = some item)
    (he : wExpired s.now item = false) :
    flashGetEv s k' t' d = (item.val,
      { s with memory := upd s.memory t' (odMoveToEnd (s.memory t') k') },
      []) := by
  simp [flashGetEv, hl, he]

/-- Branch equation: RAM miss and a backend exception. -/
theorem flashGetEv_eq_err (s : FSt) (k' : Key) (t' : Table) (d : PVal)
    (hl : odLookup (s.memory t') k' = none)
    (hg : lightGetE s.db t' k' = .error ()) :
    flashGetEv s k' t' d = (d, s, []) := by
  simp [flashGetEv, hl, hg]

/-- Branch equation: RAM miss, backend answer, loaded entry expired. -/
theorem flashGetEv_eq_load_expired (s : FSt) (k' : Key) (t' : Table)
    (d : PVal) (raw : Option BVal) (db' : LightSt)
    (hl : odLookup (s.memory t') k' = none)
    (hg : lightGetE s.db t' k' = .ok (raw, db'))
    (he : wExpired s.now (wrapRaw raw) = true) :
    flashGetEv s k' t' d =
      (d,
       flashDelete { s with db := db', memory := (upd s.memory t'
         (manageMemory s.maxKeys (odSet (s.memory t') k' (wrapRaw raw))).1) }
         k' t',
       (manageMemory s.maxKeys
         (odSet (s.memory t') k' (wrapRaw raw))).2.map
           (fun k0 => (t', k0))) := by
  simp [flashGetEv, hl, hg, he]

/-- Branch equation: RAM miss, backend answer, loaded entry live. -/
theorem flashGetEv_eq_load_live (s : FSt) (k' : Key) (t' : Table) (d : PVal)
    (raw : Option BVal) (db' : LightSt)
    (hl : odLookup (s.memory t') k' = none)
    (hg : lightGetE s.db t' k' = .ok (raw, db'))
    (he : wExpired s.now (wrapRaw raw) = false) :
    flashGetEv s k' t' d =
      ((wrapRaw raw).val,
       { s with db := db', memory := (upd
         (upd s.memory t'
           (manageMemory s.maxKeys (odSet (s.memory t') k' (wrapRaw raw))).1)
         t'
         (odMoveToEnd
           (manageMemory s.maxKeys
             (odSet (s.memory t') k' (wrapRaw raw))).1 k')) },
       (manageMemory s.maxKeys
         (odSet (s.memory t') k' (wrapRaw raw))).2.map
           (fun k0 => (t', k0))) := by
  simp [flashGetEv, hl, hg, he]

/-- A resident, unexpired entry survives any `get_value` of a key that was
not evicted by it. -/
theorem flashGetEv_preserves (s : FSt) (k' : Key) (t' : Table) (d : PVal)
    (t : Table) (k : Key) (w : Wrapper)
    (hI : odLookup (s.memory t) k = some w)
    (hlive : wExpired s.now w = false)
    (hev : (t, k) ∉ (flashGetEv s k' t' d).2.2) :
    odLookup ((flashGetEv s k' t' d).2.1.memory t) k = some w := by
  cases hl : odLookup (s.memory t') k' with
  | some item =>
      by_cases he : wExpired s.now item = true
      · rw [flashGetEv_eq_hit_expired s k' t' d item hl he]
        show odLookup ((flashDelete s k' t').memory t) k = some w
        simp only [flashDelete]
        by_cases ht : t' = t
        · subst ht
          have hk' : k ≠ k' := by
            intro hkk
            subst hkk
            have hwi : w = item := Option.some.inj (hI.symm.trans hl)
            rw [← hwi] at he
            rw [hlive] at he
            exact Bool.noConfusion he
          rw [upd_same, odLookup_erase_ne _ _ _ hk']
          exact hI
        · rw [upd_ne _ _ _ _ (fun h => ht h.symm)]
          exact hI
      · rw [Bool.not_eq_true] at he
        rw [flashGetEv_eq_hit_live s k' t' d item hl he]
        show odLookup
          (upd s.memory t' (odMoveToEnd (s.memory t') k') t) k = some w
        by_cases ht : t' = t
        · subst ht
          rw [upd_same]
          by_cases hk : k' = k
          · subst hk
            exact odLookup_moveToEnd_self _ _ _ hI
          · rw [odLookup_moveToEnd_ne _ _ _ (fun h => hk h.symm)]
            exact hI
        · rw [upd_ne _ _ _ _ (fun h => ht h.symm)]
          exact hI
  | none =>
      cases hg : lightGetE s.db t' k' with
      | error e =>
          cases e
          rw [flashGetEv_eq_err s k' t' d hl hg]
          exact hI
      | ok pr =>
          obtain ⟨raw, db'⟩ := pr
          by_cases he : wExpired s.now (wrapRaw raw) = true
          · rw [flashGetEv_eq_load_expired s k' t' d raw db' hl hg he] at hev ⊢
            show odLookup ((flashDelete
              { s with db := db', memory := (upd s.memory t'
                  (manageMemory s.maxKeys
                    (odSet (s.memory t') k' (wrapRaw raw))).1) }
              k' t').memory t) k = some w
            simp only [flashDelete, upd_same]
            by_cases ht : t' = t
            · subst ht
              have hk' : k ≠ k' := by
                intro hkk
                subst hkk
                rw [hI] at hl
                exact Option.noConfusion hl
              have hevk : k ∉ (manageMemory s.maxKeys
                  (odSet (s.memory t') k' (wrapRaw raw))).2 := by
                intro hkm
                simp only [List.mem_map] at hev
                exact hev ⟨k, hkm, rfl⟩
              rw [upd_same, odLookup_erase_ne _ _ _ hk']
              apply odLookup_manage_preserved _ _ _ _ _ hevk
              rw [odLookup_odSet_ne _ _ _ _ hk']
              exact hI
            · have htne : t ≠ t' := fun h => ht h.symm
              rw [upd_ne _ _ _ _ htne, upd_ne _ _ _ _ htne]
              exact hI
          · rw [Bool.not_eq_true] at he
            rw [flashGetEv_eq_load_live s k' t' d raw db' hl hg he] at hev ⊢
            show odLookup (upd
              (upd s.memory t' (manageMemory s.maxKeys
                (odSet (s.memory t') k' (wrapRaw raw))).1) t'
              (odMoveToEnd (manageMemory s.maxKeys
                (odSet (s.memory t') k' (wrapRaw raw))).1 k') t) k = some w
            by_cases ht : t' = t
            · subst ht
              have hk' : k ≠ k' := by
                intro hkk
                subst hkk
                rw [hI] at hl
                exact Option.noConfusion hl
              have hevk : k ∉ (manageMemory s.maxKeys
                  (odSet (s.memory t') k' (wrapRaw raw))).2 := by
                intro hkm
                simp only [List.mem_map] at hev
                exact hev ⟨k, hkm, rfl⟩
              rw [upd_same, odLookup_moveToEnd_ne _ _ _ hk']
              apply odLookup_manage_preserved _ _ _ _ _ hevk
              rw [odLookup_odSet_ne _ _ _ _ hk']
              exact hI
            · have htne : t ≠ t' := fun h => ht h.symm
              rw [upd_ne _ _ _ _ htne, upd_ne _ _ _ _ htne]
              exact hI

/-- `smLoop` never disturbs a key outside the written mapping. -/
theorem smLoop_preserves (mws : List (Key → PVal → PVal)) (e : Option Nat)
    (m : List (Key × PVal)) (k : Key) (w : Wrapper) :
    ∀ (mem : List (Key × Wrapper)) (cf : Key → Option Wrapper)
      (dl : Key → Bool), k ∉ m.map Prod.fst → odLookup mem k = some w →
      odLookup (smLoop mws e m mem cf dl).1 k = some w := by
  induction m with
  | nil => intro mem cf dl _ hI; exact hI
  | cons p rest ih =>
      intro mem cf dl hk hI
      obtain ⟨k', v⟩ := p
      simp only [List.map_cons, List.mem_cons] at hk
      push_neg at hk
      rw [smLoop]
      apply ih _ _ _ hk.2
      rw [odLookup_odSet_ne _ _ _ _ hk.1]
      exact hI

theorem flashGetEv_now (s : FSt) (k' : Key) (t' : Table) (d : PVal) :
    (flashGetEv s k' t' d).2.1.now = s.now := by
  cases hl : odLookup (s.memory t') k' with
  | some item =>
      by_cases he : wExpired s.now item = true
      · rw [flashGetEv_eq_hit_expired s k' t' d item hl he]
        rfl
      · rw [Bool.not_eq_true] at he
        rw [flashGetEv_eq_hit_live s k' t' d item hl he]
  | none =>
      cases hg : lightGetE s.db t' k' with
      | error e =>
          cases e
          rw [flashGetEv_eq_err s k' t' d hl hg]
      | ok pr =>
          obtain ⟨raw, db'⟩ := pr
          by_cases he : wExpired s.now (wrapRaw raw) = true
          · rw [flashGetEv_eq_load_expired s k' t' d raw db' hl hg he]
            rfl
          · rw [Bool.not_eq_true] at he
            rw [flashGetEv_eq_load_live s k' t' d raw db' hl hg he]

theorem step_now_le (s : FSt) (op : Op) : s.now ≤ (step s op).now := by
  cases op with
  | set k v t ttl => exact le_of_eq rfl
  | setMul m t ttl => exact le_of_eq rfl
  | get k t =>
      have := flashGetEv_now s k t PVal.vnone
      simp only [step, stepEv]
      omega
  | del k t => exact le_of_eq rfl
  | flush => exact le_of_eq rfl
  | sweep => exact le_of_eq rfl
  | tick dt => exact Nat.le_add_right _ _

theorem runOps_now_le (ops : List Op) :
    ∀ s : FSt, s.now ≤ (runOps s ops).now := by
  induction ops with
  | nil => intro s; exact le_of_eq rfl
  | cons op rest ih =>
      intro s
      exact le_trans (step_now_le s op) (ih (step s op))

/-- One public operation that neither touches nor evicts a resident,
unexpired entry preserves it. -/
theorem step_preserves (s : FSt) (op : Op) (t : Table) (k : Key)
    (w : Wrapper) (hI : odLookup (s.memory t) k = some w)
    (htouch : touchesB op t k = false)
    (hev : (t, k) ∉ (stepEv s op).2)
    (hlive : wExpired s.now w = false) :
    odLookup ((step s op).memory t) k = some w := by
  cases op with
  | set k' v t' ttl =>
      by_cases ht : t' = t
      · subst ht
        simp only [touchesB] at htouch
        simp only [decide_eq_true_eq, Bool.and_eq_false_iff,
          decide_eq_false_iff_not] at htouch
        have hk' : k ≠ k' := by
          rcases htouch with h | h
          · exact absurd trivial h
          · exact fun hkk => h hkk.symm
        simp only [step, stepEv, flashSetEv] at hev ⊢
        rw [upd_same]
        apply odLookup_manage_preserved
        · rw [odLookup_odSet_ne _ _ _ _ hk']
          exact hI
        · intro hkm
          exact hev (List.mem_map.mpr ⟨k, hkm, rfl⟩)
      · have htne : t ≠ t' := fun h => ht h.symm
        simp only [step, stepEv, flashSetEv]
        rw [upd_ne _ _ _ _ htne]
        exact hI
  | setMul m t' ttl =>
      by_cases ht : t' = t
      · subst ht
        simp only [touchesB] at htouch
        simp only [decide_eq_true_eq, Bool.and_eq_false_iff,
          decide_eq_false_iff_not] at htouch
        have hkm : k ∉ m.map Prod.fst := by
          rcases htouch with h | h
          · exact absurd trivial h
          · exact h
        simp only [step, stepEv, flashSetMulEv] at hev ⊢
        rw [upd_same]
        apply odLookup_dropToMax_preserved
        · exact smLoop_preserves _ _ m k w _ _ _ hkm hI
        · intro hkm'
          exact hev (List.mem_map.mpr ⟨k, hkm', rfl⟩)
      · have htne : t ≠ t' := fun h => ht h.symm
        simp only [step, stepEv, flashSetMulEv]
        rw [upd_ne _ _ _ _ htne]
        exact hI
  | get k' t' =>
      simp only [step, stepEv] at hev ⊢
      exact flashGetEv_preserves s k' t' PVal.vnone t k w hI hlive hev
  | del k' t' =>
      by_cases ht : t' = t
      · subst ht
        simp only [touchesB] at htouch
        simp only [decide_eq_true_eq, Bool.and_eq_false_iff,
          decide_eq_false_iff_not] at htouch
        have hk' : k ≠ k' := by
          rcases htouch with h | h
          · exact absurd trivial h
          · exact fun hkk => h hkk.symm
        simp only [step, stepEv, flashDelete]
        rw [upd_same, odLookup_erase_ne _ _ _ hk']
        exact hI
      · have htne : t ≠ t' := fun h => ht h.symm
        simp only [step, stepEv, flashDelete]
        rw [upd_ne _ _ _ _ htne]
        exact hI
  | flush => exact hI
  | sweep =>
      simp only [step, stepEv, sweepStep]
      exact odLookup_filterLive_of_live s.now _ k w hI hlive
  | tick dt => exact hI

/-- The resident entry survives a whole trace of operations that never
touch it, never evict it, while its expiry has not passed. -/
theorem runOps_preserves (t : Table) (k : Key) (w : Wrapper)
    (ops : List Op) :
    ∀ s : FSt, odLookup (s.memory t) k = some w →
      ops.all (fun op => !touchesB op t k) = true →
      (t, k) ∉ runEv s ops →
      liveB w.ttl (runOps s ops).now = true →
      odLookup ((runOps s ops).memory t) k = some w := by
  induction ops with
  | nil => intro s hI _ _ _; exact hI
  | cons op rest ih =>
      intro s hI hall hev hlive
      simp only [List.all_cons, Bool.and_eq_true, Bool.not_eq_true'] at hall
      simp only [runEv, List.mem_append] at hev
      push_neg at hev
      have hnow1 : (step s op).now ≤ (runOps (step s op) rest).now :=
        runOps_now_le rest (step s op)
      have hlive1 : liveB w.ttl (step s op).now = true := by
        apply liveB_mono _ _ _ hnow1
        simpa [runOps] using hlive
      have hlive0 : wExpired s.now w = false := by
        apply liveB_not_expired
        exact liveB_mono _ _ _ (step_now_le s op) hlive1
      have hstep := step_preserves s op t k w hI hall.1 hev.1 hlive0
      have := ih (step s op) hstep hall.2 hev.2 (by simpa [runOps] using hlive)
      simpa [runOps] using this

/-- Claim C1, counterexample: with `max_keys = 1`, write `a` then `b`
(evicting `a` before any flush), then read `a`: the result is `None`, not
the written value `5`, although no TTL was given and `a` was never
deleted.  The dirty map still holds the write, but `get_value` never
consults it. -/
theorem c1_counterexample :
    (flashGetEv (runOps (flashInit 1)
        [Op.set "a" (PVal.vint 5) "storage" none,
         Op.set "b" (PVal.vint 6) "storage" none])
        "a" "storage" PVal.vnone).1 = PVal.vnone ∧
    PVal.vnone ≠ PVal.vint 5 := ⟨by rfl, by decide⟩

/-- A key written somewhere in a `set_multiple` mapping (with the
distinct keys of a Python dict) ends the loop bound to its
middleware-transformed wrapper. -/
theorem smLoop_lookup_mem (mws : List (Key → PVal → PVal)) (e : Option Nat)
    (m : List (Key × PVal)) (k : Key) (v : PVal) :
    ∀ (mem : List (Key × Wrapper)) (cf : Key → Option Wrapper)
      (dl : Key → Bool), (k, v) ∈ m → (m.map Prod.fst).Nodup →
      odLookup (smLoop mws e m mem cf dl).1 k =
        some ⟨applyMW mws k v, e⟩ := by
  induction m with
  | nil =>
      intro mem cf dl hm _
      simp at hm
  | cons p rest ih =>
      intro mem cf dl hm hnd
      obtain ⟨k', v'⟩ := p
      simp only [List.map_cons, List.nodup_cons] at hnd
      rcases List.mem_cons.mp hm with h | h
      · injection h with h1 h2
        subst h1
        subst h2
        simp only [smLoop]
        apply smLoop_preserves mws e rest k _ _ _ _ hnd.1
        exact odLookup_odSet_self _ _ _
      · simp only [smLoop]
        exact ih _ _ _ h hnd.2

/-- Claim C1 (amended): a value written by `set_value` or by
`set_multiple` — as transformed by the configured middleware chain, i.e.
the written value itself when no middleware is installed — is returned by
every subsequent `get`, across any further operations including flushes,
provided no later operation writes or deletes that key, the key is never
evicted from the recency map, and its TTL (when given) has not elapsed at
read time. -/
theorem c1_write_then_get :
    (∀ (s : FSt) (k : Key) (v : PVal) (t : Table) (ttl : Option Nat)
        (ops : List Op) (d : PVal),
      ops.all (fun op => !touchesB op t k) = true →
      (t, k) ∉ runEv s (Op.set k v t ttl :: ops) →
      liveB (mkExpiry s.now ttl)
        (runOps s (Op.set k v t ttl :: ops)).now = true →
      (flashGetEv (runOps s (Op.set k v t ttl :: ops)) k t d).1 =
        applyMW s.middleware k v) ∧
    (∀ (s : FSt) (m : List (Key × PVal)) (k : Key) (v : PVal) (t : Table)
        (ttl : Option Nat) (ops : List Op) (d : PVal),
      (k, v) ∈ m → (m.map Prod.fst).Nodup →
      ops.all (fun op => !touchesB op t k) = true →
      (t, k) ∉ runEv s (Op.setMul m t ttl :: ops) →
      liveB (mkExpiry s.now ttl)
        (runOps s (Op.setMul m t ttl :: ops)).now = true →
      (flashGetEv (runOps s (Op.setMul m t ttl :: ops)) k t d).1 =
        applyMW s.middleware k v) := by
  constructor
  · intro s k v t ttl ops d htouch hev hlive
    simp only [runEv, List.mem_append] at hev
    push_neg at hev
    have hev1 : (t, k) ∉ (stepEv s (Op.set k v t ttl)).2 := hev.1
    have hI1 : odLookup ((step s (Op.set k v t ttl)).memory t) k =
        some ⟨applyMW s.middleware k v, mkExpiry s.now ttl⟩ := by
      simp only [step, stepEv, flashSetEv] at hev1 ⊢
      rw [upd_same]
      apply odLookup_manage_preserved
      · exact odLookup_odSet_self _ _ _
      · intro hkm
        exact hev1 (List.mem_map.mpr ⟨k, hkm, rfl⟩)
    have hrun : odLookup
        ((runOps (step s (Op.set k v t ttl)) ops).memory t) k =
        some ⟨applyMW s.middleware k v, mkExpiry s.now ttl⟩ := by
      apply runOps_preserves t k _ ops _ hI1 htouch hev.2
      simpa [runOps] using hlive
    have hexp : wExpired (runOps (step s (Op.set k v t ttl)) ops).now
        ⟨applyMW s.middleware k v, mkExpiry s.now ttl⟩ = false := by
      apply liveB_not_expired
      simpa [runOps] using hlive
    have hfold : runOps s (Op.set k v t ttl :: ops) =
        runOps (step s (Op.set k v t ttl)) ops := rfl
    rw [hfold]
    simp only [flashGetEv, hrun, hexp, Bool.false_eq_true, if_false]
  · intro s m k v t ttl ops d hm hnd htouch hev hlive
    simp only [runEv, List.mem_append] at hev
    push_neg at hev
    have hev1 : (t, k) ∉ (stepEv s (Op.setMul m t ttl)).2 := hev.1
    have hI1 : odLookup ((step s (Op.setMul m t ttl)).memory t) k =
        some ⟨applyMW s.middleware k v, mkExpiry s.now ttl⟩ := by
      simp only [step, stepEv, flashSetMulEv] at hev1 ⊢
      rw [upd_same]
      apply odLookup_dropToMax_preserved
      · exact smLoop_lookup_mem s.middleware (mkExpiry s.now ttl) m k v
          _ _ _ hm hnd
      · intro hkm
        exact hev1 (List.mem_map.mpr ⟨k, hkm, rfl⟩)
    have hrun : odLookup
        ((runOps (step s (Op.setMul m t ttl)) ops).memory t) k =
        some ⟨applyMW s.middleware k v, mkExpiry s.now ttl⟩ := by
      apply runOps_preserves t k _ ops _ hI1 htouch hev.2
      simpa [runOps] using hlive
    have hexp : wExpired (runOps (step s (Op.setMul m t ttl)) ops).now
        ⟨applyMW s.middleware k v, mkExpiry s.now ttl⟩ = false := by
      apply liveB_not_expired
      simpa [runOps] using hlive
    have hfold : runOps s (Op.setMul m t ttl :: ops) =
        runOps (step s (Op.setMul m t ttl)) ops := rfl
    rw [hfold]
    simp only [flashGetEv, hrun, hexp, Bool.false_eq_true, if_false]

theorem c1_write_then_get_witness :
    ([Op.flush, Op.get "other" "storage"].all
      (fun op => !touchesB op "storage" "k") = true) ∧
    (("storage", "k") ∉ runEv (flashInit 100)
      (Op.set "k" (PVal.vint 5) "storage" none ::
        [Op.flush, Op.get "other" "storage"])) ∧
    (flashGetEv (runOps (flashInit 100)
        (Op.set "k" (PVal.vint 5) "storage" none ::
          [Op.flush, Op.get "other" "storage"]))
        "k" "storage" PVal.vnone).1 = PVal.vint 5 ∧
    ("k", PVal.vint 5) ∈ [("a", PVal.vint 1), ("k", PVal.vint 5)] ∧
    (flashGetEv (runOps (flashInit 100)
        (Op.setMul [("a", PVal.vint 1), ("k", PVal.vint 5)] "storage" none ::
          [Op.flush]))
        "k" "storage" PVal.vnone).1 = PVal.vint 5 :=
  ⟨by decide, by decide,
   c1_write_then_get.1 (flashInit 100) "k" (PVal.vint 5) "storage" none
     [Op.flush, Op.get "other" "storage"] PVal.vnone (by decide)
     (by decide) (by decide),
   by decide,
   c1_write_then_get.2 (flashInit 100)
     [("a", PVal.vint 1), ("k", PVal.vint 5)] "k" (PVal.vint 5) "storage"
     none [Op.flush] PVal.vnone (by decide) (by decide) (by decide)
     (by decide) (by decide)⟩

theorem c6_lru_eviction_witness :
    (["a", "b", "c"] : List Key).Nodup ∧
    ((writeSeq 2 ["a", "b", "c"] "storage" (PVal.vint 1)).memory
        "storage").length = 2 ∧
    odLookup ((writeSeq 2 ["a", "b", "c"] "storage" (PVal.vint 1)).memory
        "storage") "a" = none :=
  ⟨by decide,
   (c6_lru_eviction 2 "a" ["b", "c"] "storage" (PVal.vint 1) (by decide)
      (by decide)).2.1,
   (c6_lru_eviction 2 "a" ["b", "c"] "storage" (PVal.vint 1) (by decide)
      (by decide)).2.2.1⟩

/-! ### The sharded backend `MasterLight` (MasterLight.py)

The Master Index (`idx` table of master_index.db) is a list of
`(table_name, key, shard_id)` rows; `activeShardId` is the rotation
cursor; `shardSize` records each shard's `_last_size` (refreshed from the
file system at flush time, supplied here as an oracle); the per-shard
`Shard` caches, dirty sets and sqlite files are `shardCache`,
`shardDirty`, `shardDisk`.  The `lru_cache` memo over `_lookup_shard_id`
is cleared on every index mutation, so sequential lookups always agree
with the index and the memo is not modelled separately. -/

def MAX_SHARD_SIZE : Nat := 100 * 1024 * 1024

structure MLState where
  index : List (Table × Key × Nat)
  activeShardId : Nat
  shardSize : Nat → Nat
  shardCache : Nat → Table → Key → Option PVal
  shardDirty : Nat → Table → Key → Bool
  shardDisk : Nat → Table → Key → Option PVal

/-- Fresh `MasterLight` over an empty directory: `_get_last_shard_id`
yields 0 and every shard file is absent (size 0). -/
def mlInit : MLState :=
  { index := [], activeShardId := 0, shardSize := fun _ => 0,
    shardCache := fun _ _ _ => none,
    shardDirty := fun _ _ _ => false,
    shardDisk := fun _ _ _ => none }

/-- `MasterLight._lookup_shard_id`: first matching index row. -/
def idxLookup : List (Table × Key × Nat) → Table → Key → Option Nat
  | [], _, _ => none
  | (t', k', sid) :: rest, t, k =>
      if t' = t ∧ k' = k then some sid else idxLookup rest t k

/-- Loop of `MasterLight.set_multiple`: resolve or assign the shard of
each key, rotating the active shard when its recorded size exceeds
`MAX_SHARD_SIZE`; new index rows are accumulated and inserted after the
loop, and the per-shard groups collected.  Returns
`(final active id, new index rows, (shard, key, value) groups)`. -/
def mlAssignLoop (idx : List (Table × Key × Nat)) (sz : Nat → Nat)
    (t : Table) :
    List (Key × PVal) → Nat →
      Nat × List (Table × Key × Nat) × List (Nat × Key × PVal)
  | [], active => (active, [], [])
  | (k, v) :: rest, active =>
      match idxLookup idx t k with
      | some sid =>
          let r := mlAssignLoop idx sz t rest active
          (r.1, r.2.1, (sid, k, v) :: r.2.2)
      | none =>
          let a' := if MAX_SHARD_SIZE < sz active then active + 1 else active
          let r := mlAssignLoop idx sz t rest a'
          (r.1, (t, k, a') :: r.2.1, (a', k, v) :: r.2.2)

def updShardCache (c : Nat → Table → Key → Option PVal) (sid : Nat)
    (t : Table) (k : Key) (v : PVal) : Nat → Table → Key → Option PVal :=
  fun sid' t' k' =>
    if sid' = sid ∧ t' = t ∧ k' = k then some v else c sid' t' k'

def updShardDirty (dm : Nat → Table → Key → Bool) (sid : Nat) (t : Table)
    (k : Key) : Nat → Table → Key → Bool :=
  fun sid' t' k' =>
    if sid' = sid ∧ t' = t ∧ k' = k then true else dm sid' t' k'

/-- `MasterLight.set_multiple`: assign shards (with rotation), commit the
new index rows, then update each destination shard's cache and dirty set
(deferred persistence). -/
def mlSetMultiple (s : MLState) (m : List (Key × PVal)) (t : Table) :
    MLState :=
  let r := mlAssignLoop s.index s.shardSize t m s.activeShardId
  { s with activeShardId := r.1,
           index := s.index ++ r.2.1,
           shardCache := r.2.2.foldl
             (fun c g => updShardCache c g.1 t g.2.1 g.2.2) s.shardCache,
           shardDirty := r.2.2.foldl
             (fun dm g => updShardDirty dm g.1 t g.2.1) s.shardDirty }

/-- `MasterLight.get_value`: resolve the shard from the index (default on
a miss), then shard cache, then shard disk (populating the cache). -/
def mlGetValue (s : MLState) (k : Key) (t : Table) : Option PVal × MLState :=
  match idxLookup s.index t k with
  | none => (none, s)
  | some sid =>
      match s.shardCache sid t k with
      | some v => (some v, s)
      | none =>
          match s.shardDisk sid t k with
          | some v =>
              (some v,
               { s with shardCache := (updShardCache s.shardCache sid t k v) })
          | none => (none, s)

/-- `MasterLight.delete_multiple`: purge each resolved key from its
mapped shard's cache, dirty set and file, then delete the index rows. -/
def mlDeleteMultiple (s : MLState) (ks : List Key) (t : Table) : MLState :=
  { s with
    index := s.index.filter
      (fun e => !(decide (e.1 = t) && decide (e.2.1 ∈ ks))),
    shardCache := fun sid t' k =>
      if t' = t ∧ k ∈ ks ∧ idxLookup s.index t k = some sid then none
      else s.shardCache sid t' k,
    shardDirty := fun sid t' k =>
      if t' = t ∧ k ∈ ks ∧ idxLookup s.index t k = some sid then false
      else s.shardDirty sid t' k,
    shardDisk := fun sid t' k =>
      if t' = t ∧ k ∈ ks ∧ idxLookup s.index t k = some sid then none
      else s.shardDisk sid t' k }

/-- `MasterLight.flush`: write every dirty cached value to its shard file,
clear the dirty sets and refresh each shard's recorded size from the file
system (the `sizes` oracle). -/
def mlFlush (s : MLState) (sizes : Nat → Nat) : MLState :=
  { s with
    shardDisk := fun sid t k =>
      if s.shardDirty sid t k then
        match s.shardCache sid t k with
        | some v => some v
        | none => s.shardDisk sid t k
      else s.shardDisk sid t k,
    shardDirty := fun _ _ _ => false,
    shardSize := sizes }

/-- `MasterLight.clear_table`: delete the table's index rows, drop and
recreate the physical table on every shard, clear the caches. -/
def mlClearTable (s : MLState) (t : Table) : MLState :=
  { s with
    index := s.index.filter (fun e => !(decide (e.1 = t))),
    shardCache := fun sid t' k =>
      if t' = t then none else s.shardCache sid t' k,
    shardDirty := fun sid t' k =>
      if t' = t then false else s.shardDirty sid t' k,
    shardDisk := fun sid t' k =>
      if t' = t then none else s.shardDisk sid t' k }

/-- `MasterLight.drop_table`: delete the table's index rows, drop the
physical table on every shard, pop the caches. -/
def mlDropTable (s : MLState) (t : Table) : MLState :=
  { s with
    index := s.index.filter (fun e => !(decide (e.1 = t))),
    shardCache := fun sid t' k =>
      if t' = t then none else s.shardCache sid t' k,
    shardDirty := fun sid t' k =>
      if t' = t then false else s.shardDirty sid t' k,
    shardDisk := fun sid t' k =>
      if t' = t then none else s.shardDisk sid t' k }

inductive MLOp where
  | setMul (m : List (Key × PVal)) (t : Table)
  | delMul (ks : List Key) (t : Table)
  | getVal (k : Key) (t : Table)
  | flushSizes (sizes : Nat → Nat)
  | clearTable (t : Table)
  | dropTable (t : Table)

def mlStep (s : MLState) : MLOp → MLState
  | .setMul m t => mlSetMultiple s m t
  | .delMul ks t => mlDeleteMultiple s ks t
  | .getVal k t => (mlGetValue s k t).2
  | .flushSizes sizes => mlFlush s sizes
  | .clearTable t => mlClearTable s t
  | .dropTable t => mlDropTable s t

def mlRun (s : MLState) (ops : List MLOp) : MLState := ops.foldl mlStep s

/-- Does an operation remove the given (table, key) pair from the index? -/
def removesB (op : MLOp) (t : Table) (k : Key) : Bool :=
  match op with
  | .delMul ks t' => decide (t' = t) && decide (k ∈ ks)
  | .clearTable t' => decide (t' = t)
  | .dropTable t' => decide (t' = t)
  | _ => false

theorem idxLookup_append (l₁ l₂ : List (Table × Key × Nat)) (t : Table)
    (k : Key) :
    idxLookup (l₁ ++ l₂) t k =
      match idxLookup l₁ t k with
      | some sid => some sid
      | none => idxLookup l₂ t k := by
  induction l₁ with
  | nil => simp [idxLookup]
  | cons e rest ih =>
      obtain ⟨t', k', sid⟩ := e
      by_cases h : t' = t ∧ k' = k <;> simp [idxLookup, h, ih]

theorem idxLookup_filter_keep (l : List (Table × Key × Nat))
    (pred : Table × Key × Nat → Bool) (t : Table) (k : Key)
    (hkeep : ∀ sid, pred (t, k, sid) = true) :
    idxLookup (l.filter pred) t k = idxLookup l t k := by
  induction l with
  | nil => simp [idxLookup]
  | cons e rest ih =>
      obtain ⟨t', k', sid⟩ := e
      by_cases h : t' = t ∧ k' = k
      · obtain ⟨h1, h2⟩ := h
        subst h1
        subst h2
        rw [List.filter_cons, hkeep sid]
        simp [idxLookup, ih]
      · by_cases hp : pred (t', k', sid) = true
        · rw [List.filter_cons, hp]
          simp [idxLookup, h, ih]
        · rw [Bool.not_eq_true] at hp
          rw [List.filter_cons, hp]
          simp [idxLookup, h, ih]

theorem mlAssignLoop_active_le (idx : List (Table × Key × Nat))
    (sz : Nat → Nat) (t : Table) (m : List (Key × PVal)) :
    ∀ active : Nat, active ≤ (mlAssignLoop idx sz t m active).1 := by
  induction m with
  | nil => intro a; exact Nat.le_refl a
  | cons p rest ih =>
      intro a
      obtain ⟨k, v⟩ := p
      cases h : idxLookup idx t k with
      | some sid => simpa [mlAssignLoop, h] using ih a
      | none =>
          by_cases hs : MAX_SHARD_SIZE < sz a
          · have h1 := ih (a + 1)
            simp only [mlAssignLoop, h, if_pos hs]
            omega
          · have h1 := ih a
            simp only [mlAssignLoop, h, if_neg hs]
            exact h1

/-- Branch equation: `get_value` with no index entry. -/
theorem mlGetValue_eq_noidx (s : MLState) (k : Key) (t : Table)
    (hi : idxLookup s.index t k = none) : mlGetValue s k t = (none, s) := by
  simp [mlGetValue, hi]

/-- Branch equation: `get_value` served from the shard cache. -/
theorem mlGetValue_eq_cache (s : MLState) (k : Key) (t : Table) (sid : Nat)
    (v : PVal) (hi : idxLookup s.index t k = some sid)
    (hc : s.shardCache sid t k = some v) : mlGetValue s k t = (some v, s) := by
  simp [mlGetValue, hi, hc]

/-- Branch equation: `get_value` served from the shard file. -/
theorem mlGetValue_eq_disk (s : MLState) (k : Key) (t : Table) (sid : Nat)
    (v : PVal) (hi : idxLookup s.index t k = some sid)
    (hc : s.shardCache sid t k = none) (hd : s.shardDisk sid t k = some v) :
    mlGetValue s k t =
      (some v,
       { s with shardCache := (updShardCache s.shardCache sid t k v) }) := by
  simp [mlGetValue, hi, hc, hd]

/-- Branch equation: `get_value` with an index entry but no data. -/
theorem mlGetValue_eq_miss (s : MLState) (k : Key) (t : Table) (sid : Nat)
    (hi : idxLookup s.index t k = some sid)
    (hc : s.shardCache sid t k = none) (hd : s.shardDisk sid t k = none) :
    mlGetValue s k t = (none, s) := by
  simp [mlGetValue, hi, hc, hd]

theorem mlGetValue_snd_cases (s : MLState) (k : Key) (t : Table) :
    (mlGetValue s k t).2 = s ∨
      ∃ sid v, (mlGetValue s k t).2 =
        { s with shardCache := (updShardCache s.shardCache sid t k v) } := by
  cases hi : idxLookup s.index t k with
  | none => exact Or.inl (by rw [mlGetValue_eq_noidx s k t hi])
  | some sid =>
      cases hc : s.shardCache sid t k with
      | some v => exact Or.inl (by rw [mlGetValue_eq_cache s k t sid v hi hc])
      | none =>
          cases hd : s.shardDisk sid t k with
          | some v =>
              exact Or.inr ⟨sid, v,
                by rw [mlGetValue_eq_disk s k t sid v hi hc hd]⟩
          | none =>
              exact Or.inl (by rw [mlGetValue_eq_miss s k t sid hi hc hd])

theorem mlGetValue_index (s : MLState) (k : Key) (t : Table) :
    (mlGetValue s k t).2.index = s.index := by
  rcases mlGetValue_snd_cases s k t with h | ⟨sid, v, h⟩ <;> rw [h]

theorem mlStep_active_le (s : MLState) (op : MLOp) :
    s.activeShardId ≤ (mlStep s op).activeShardId := by
  cases op with
  | setMul m t =>
      exact mlAssignLoop_active_le s.index s.shardSize t m s.activeShardId
  | delMul ks t => exact le_of_eq rfl
  | getVal k t =>
      apply le_of_eq
      show s.activeShardId = (mlGetValue s k t).2.activeShardId
      rcases mlGetValue_snd_cases s k t with h | ⟨sid, v, h⟩ <;> rw [h]
  | flushSizes sizes => exact le_of_eq rfl
  | clearTable t => exact le_of_eq rfl
  | dropTable t => exact le_of_eq rfl

/-- Claim C4: (a) the active shard id never decreases across any sequence
of operations; (b) when the active shard's recorded size exceeds the
configured maximum at assignment time, a new key is assigned a strictly
greater shard id than the previous active id and than every id recorded in
the index; (c) a (table, key) pair recorded in the Master Index resolves
to the same shard id after any operation that does not delete it or its
table. -/
theorem c4_shard_rotation :
    (∀ (s : MLState) (ops : List MLOp),
      s.activeShardId ≤ (mlRun s ops).activeShardId) ∧
    (∀ (s : MLState) (t : Table) (k : Key) (v : PVal),
      idxLookup s.index t k = none →
      MAX_SHARD_SIZE < s.shardSize s.activeShardId →
      s.index.all (fun e => decide (e.2.2 ≤ s.activeShardId)) = true →
      idxLookup (mlSetMultiple s [(k, v)] t).index t k =
        some (s.activeShardId + 1) ∧
      ∀ e ∈ s.index, e.2.2 < s.activeShardId + 1) ∧
    (∀ (s : MLState) (op : MLOp) (t : Table) (k : Key) (sid : Nat),
      idxLookup s.index t k = some sid → removesB op t k = false →
      idxLookup (mlStep s op).index t k = some sid) := by
  refine ⟨?_, ?_, ?_⟩
  · intro s ops
    induction ops generalizing s with
    | nil => exact Nat.le_refl _
    | cons op rest ih =>
        exact le_trans (mlStep_active_le s op) (ih (mlStep s op))
  · intro s t k v hnew hsize hbound
    constructor
    · simp only [mlSetMultiple, mlAssignLoop, hnew, if_pos hsize]
      rw [idxLookup_append, hnew]
      simp [idxLookup]
    · intro e he
      have := List.all_eq_true.mp hbound e he
      simp only [decide_eq_true_eq] at this
      omega
  · intro s op t k sid hidx hrem
    cases op with
    | setMul m t' =>
        simp only [mlStep, mlSetMultiple]
        rw [idxLookup_append, hidx]
    | delMul ks t' =>
        simp only [removesB, Bool.and_eq_false_iff,
          decide_eq_false_iff_not] at hrem
        have hkeep : ∀ sid' : Nat,
            (fun e : Table × Key × Nat =>
              !(decide (e.1 = t') && decide (e.2.1 ∈ ks))) (t, k, sid') =
              true := by
          intro sid'
          simp only [Bool.not_eq_true', Bool.and_eq_false_iff,
            decide_eq_false_iff_not]
          rcases hrem with h | h
          · exact Or.inl (fun hh => h hh.symm)
          · exact Or.inr h
        simp only [mlStep, mlDeleteMultiple]
        rw [idxLookup_filter_keep _ _ _ _ hkeep, hidx]
    | getVal k' t' =>
        simp only [mlStep]
        rw [mlGetValue_index, hidx]
    | flushSizes sizes => exact hidx
    | clearTable t' =>
        simp only [removesB, decide_eq_false_iff_not] at hrem
        have hkeep : ∀ sid' : Nat,
            (fun e : Table × Key × Nat => !(decide (e.1 = t')))
              (t, k, sid') = true := by
          intro sid'
          simp only [Bool.not_eq_true', decide_eq_false_iff_not]
          exact fun hh => hrem hh.symm
        simp only [mlStep, mlClearTable]
        rw [idxLookup_filter_keep _ _ _ _ hkeep, hidx]
    | dropTable t' =>
        simp only [removesB, decide_eq_false_iff_not] at hrem
        have hkeep : ∀ sid' : Nat,
            (fun e : Table × Key × Nat => !(decide (e.1 = t')))
              (t, k, sid') = true := by
          intro sid'
          simp only [Bool.not_eq_true', decide_eq_false_iff_not]
          exact fun hh => hrem hh.symm
        simp only [mlStep, mlDropTable]
        rw [idxLookup_filter_keep _ _ _ _ hkeep, hidx]

theorem c4_shard_rotation_witness :
    (mlInit.activeShardId ≤
      (mlRun mlInit [MLOp.setMul [("k", PVal.vint 1)] "tbl"]).activeShardId) ∧
    (idxLookup (mlSetMultiple
      { mlInit with index := [("tbl", "old", 0)],
                    shardSize := fun _ => MAX_SHARD_SIZE + 1 }
      [("new", PVal.vint 2)] "tbl").index "tbl" "new" = some 1) ∧
    (idxLookup (mlStep { mlInit with index := [("tbl", "k", 0)] }
      (MLOp.setMul [("k2", PVal.vint 3)] "tbl")).index "tbl" "k" = some 0) :=
  ⟨c4_shard_rotation.1 mlInit [MLOp.setMul [("k", PVal.vint 1)] "tbl"],
   (c4_shard_rotation.2.1
     { mlInit with index := [("tbl", "old", 0)],
                   shardSize := fun _ => MAX_SHARD_SIZE + 1 }
     "tbl" "new" (PVal.vint 2) (by decide) (by decide) (by decide)).1,
   c4_shard_rotation.2.2 { mlInit with index := [("tbl", "k", 0)] }
     (MLOp.setMul [("k2", PVal.vint 3)] "tbl") "tbl" "k" 0 (by decide)
     (by decide)⟩

/-! ### Claim C3: table-name validation across tiers -/

/-- Claim C3, counterexample: the sharded backend performs no table-name
validation: `set_multiple` on the invalid table name `bad;name` is
accepted and records an index row for it (rather than rejecting before any
IO); the RAM tier's `set_value` likewise stores under the invalid name. -/
theorem c3_counterexample :
    validTable "bad;name" = false ∧
    idxLookup (mlSetMultiple mlInit [("k", PVal.vint 1)] "bad;name").index
      "bad;name" "k" = some 0 ∧
    (odLookup ((flashSet (flashInit 100) "k" (PVal.vint 1) "bad;name"
      none).memory "bad;name") "k").isSome = true := by
  refine ⟨by decide, by decide, by decide⟩

/-- Claim C3 (amended): only the single-file tier validates table names —
every `Light` operation rejects a name outside `[A-Za-z0-9_]+` before any
IO — while the sharded backend and the RAM cache tier accept any table
name: `MasterLight.set_multiple` records an index row and
`flash.set_value` stores into the recency map regardless of the name. -/
theorem c3_validation_only_light :
    (∀ (st : LightSt) (t : Table) (k : Key) (v : BVal),
      validTable t = false →
      lightGetE st t k = .error () ∧ lightCheckE st t k = .error () ∧
      lightSetE st t k v = .error () ∧ lightDeleteE st t k = .error ()) ∧
    (∀ (s : MLState) (t : Table) (k : Key) (v : PVal),
      (idxLookup (mlSetMultiple s [(k, v)] t).index t k).isSome = true) ∧
    (∀ (s : FSt) (k : Key) (v : PVal) (t : Table), 1 ≤ s.maxKeys →
      (odLookup ((flashSet s k v t none).memory t) k).isSome = true) := by
  refine ⟨?_, ?_, ?_⟩
  · intro st t k v hv
    refine ⟨?_, ?_, ?_, ?_⟩ <;>
      simp [lightGetE, lightCheckE, lightSetE, lightDeleteE, hv]
  · intro s t k v
    cases hi : idxLookup s.index t k with
    | some sid =>
        simp only [mlSetMultiple, mlAssignLoop, hi]
        rw [idxLookup_append, hi]
        rfl
    | none =>
        simp only [mlSetMultiple, mlAssignLoop, hi]
        by_cases hs : MAX_SHARD_SIZE < s.shardSize s.activeShardId
        · rw [if_pos hs, idxLookup_append, hi]
          simp [idxLookup]
        · rw [if_neg hs, idxLookup_append, hi]
          simp [idxLookup]
  · intro s k v t hmax
    rw [flashSet_lookup s k v t none hmax]
    rfl

theorem c3_validation_only_light_witness :
    validTable "bad;name" = false ∧
    (lightGetE lightEmpty "bad;name" "k" = .error () ∧
      lightCheckE lightEmpty "bad;name" "k" = .error () ∧
      lightSetE lightEmpty "bad;name" "k" (BVal.raw (PVal.vint 1)) =
        .error () ∧
      lightDeleteE lightEmpty "bad;name" "k" = .error ()) ∧
    (idxLookup (mlSetMultiple mlInit [("k", PVal.vint 1)] "bad;name").index
      "bad;name" "k").isSome = true :=
  ⟨by decide,
   c3_validation_only_light.1 lightEmpty "bad;name" "k"
     (BVal.raw (PVal.vint 1)) (by decide),
   c3_validation_only_light.2.1 mlInit "bad;name" "k" (PVal.vint 1)⟩

/-! ### Claim C8: watcher and middleware failures on the write paths

Here middleware and watcher callbacks may fail, modelled by `Except`; the
state mirrors `flash`'s RAM structures.  `set_value` runs its watchers
with no `try`, while the effective `set_multiple` (the later definition in
flash.py) wraps each callback in `try: ... except: pass`. -/

structure FSt8 where
  now : Nat
  maxKeys : Nat
  middleware : List (Key → PVal → Except Unit PVal)
  watchers : Key → List (PVal → Except Unit Unit)
  memory : Table → List (Key × Wrapper)
  cacheF : Table → Key → Option Wrapper
  deleted : Table → Key → Bool

/-- Failure-aware middleware chain: the first failure propagates. -/
def applyMWE : List (Key → PVal → Except Unit PVal) → Key → PVal →
    Except Unit PVal
  | [], _, v => .ok v
  | f :: rest, k, v =>
      match f k v with
      | .ok v' => applyMWE rest k v'
      | .error e => .error e

/-- Watcher invocation in `set_value`: callbacks run in order with no
`try`/`except`, so the first failure propagates and skips the rest.
Returns the indices of the callbacks invoked and whether an exception
escaped. -/
def runWatchStop : List (PVal → Except Unit Unit) → PVal → List Nat × Bool
  | [], _ => ([], false)
  | cb :: rest, v =>
      match cb v with
      | .ok _ =>
          let r := runWatchStop rest v
          (0 :: r.1.map (fun i => i + 1), r.2)
      | .error _ => ([0], true)

/-- Watcher invocation in the effective `set_multiple`:
`try: cb(value) except: pass` — every callback is invoked, failures are
swallowed.  Returns the indices of the callbacks invoked. -/
def runWatchSwallow : List (PVal → Except Unit Unit) → PVal → List Nat
  | [], _ => []
  | cb :: rest, v =>
      match cb v with
      | .ok _ => 0 :: (runWatchSwallow rest v).map (fun i => i + 1)
      | .error _ => 0 :: (runWatchSwallow rest v).map (fun i => i + 1)

/-- `flash.set_value` with failure-aware middleware and watchers: returns
the new state, the indices of the watchers invoked for the key and
whether an exception propagated to the caller.  The store (RAM, dirty
map, undelete, LRU) happens before the watchers run; a middleware
failure happens before the store. -/
def setValue8 (s : FSt8) (k : Key) (v : PVal) (t : Table)
    (ttl : Option Nat) : FSt8 × List Nat × Bool :=
  match applyMWE s.middleware k v with
  | .error _ => (s, [], true)
  | .ok v' =>
      let w : Wrapper := ⟨v', mkExpiry s.now ttl⟩
      let p := manageMemory s.maxKeys (odSet (s.memory t) k w)
      let s' : FSt8 :=
        { s with memory := upd s.memory t p.1,
                 cacheF := upd2 s.cacheF t k (some w),
                 deleted := upd2 s.deleted t k false }
      let r := runWatchStop (s.watchers k) v'
      (s', r.1, r.2)

/-- Loop of the effective `flash.set_multiple` with failure-aware
middleware and watchers over one table: keys are processed in order; a
middleware failure aborts the loop (prior stores persist under the held
lock) and propagates; watcher failures are swallowed.  Returns the
table's updated recency map, dirty map and pending-deletion set, the
watcher indices invoked per key, and whether an exception propagated. -/
def smLoop8 (mws : List (Key → PVal → Except Unit PVal))
    (watchers : Key → List (PVal → Except Unit Unit)) (e : Option Nat) :
    List (Key × PVal) → List (Key × Wrapper) → (Key → Option Wrapper) →
      (Key → Bool) →
      (List (Key × Wrapper) × (Key → Option Wrapper) × (Key → Bool)) ×
        List (Key × List Nat) × Bool
  | [], mem, cf, dl => ((mem, cf, dl), [], false)
  | (k, v) :: rest, mem, cf, dl =>
      match applyMWE mws k v with
      | .error _ => ((mem, cf, dl), [], true)
      | .ok v' =>
          let w : Wrapper := ⟨v', e⟩
          let inv := runWatchSwallow (watchers k) v'
          let r := smLoop8 mws watchers e rest (odSet mem k w)
            (fun k' => if k' = k then some w else cf k')
            (fun k' => if k' = k then false else dl k')
          (r.1, (k, inv) :: r.2.1, r.2.2)

/-- The effective `flash.set_multiple` with failure-aware middleware and
watchers; the closing eviction `while` loop is skipped when an exception
aborted the key loop. -/
def setMultiple8 (s : FSt8) (m : List (Key × PVal)) (t : Table)
    (ttl : Option Nat) : FSt8 × List (Key × List Nat) × Bool :=
  let e := mkExpiry s.now ttl
  let r := smLoop8 s.middleware s.watchers e m (s.memory t)
    (fun k => s.cacheF t k) (fun k => s.deleted t k)
  let mem2 := if r.2.2 then r.1.1 else (dropToMax s.maxKeys r.1.1).1
  ({ s with memory := upd s.memory t mem2,
            cacheF := upd s.cacheF t r.1.2.1,
            deleted := upd s.deleted t r.1.2.2 },
   r.2.1, r.2.2)

/-- Concrete instance for the counterexample: two watchers on key `k`,
the first of which raises. -/
def s8ex : FSt8 :=
  { now := 0, maxKeys := 100, middleware := [],
    watchers := fun k =>
      if k = "k" then [fun _ => .error (), fun _ => .ok ()] else [],
    memory := fun _ => [],
    cacheF := fun _ _ => none,
    deleted := fun _ _ => false }

/-- Claim C8, counterexample: in `set_value` (which, unlike the
effective `set_multiple`, has no `try` around its watcher loop) a failing
first watcher prevents the second watcher from being invoked and the
exception propagates to the caller — so "every remaining watcher is still
invoked" fails on the `set` write path. -/
theorem c8_counterexample :
    (setValue8 s8ex "k" (PVal.vint 1) "storage" none).2.1 = [0] ∧
    1 ∉ (setValue8 s8ex "k" (PVal.vint 1) "storage" none).2.1 ∧
    (setValue8 s8ex "k" (PVal.vint 1) "storage" none).2.2 = true := by
  refine ⟨by rfl, by decide, by rfl⟩

theorem range_succ_shift (n : Nat) :
    List.range (n + 1) = 0 :: (List.range n).map (fun i => i + 1) := by
  have h : Nat.succ = fun i : Nat => i + 1 := funext fun i => rfl
  rw [List.range_succ_eq_map, h]

/-- Every watcher is invoked by the swallowing loop, in order. -/
theorem runWatchSwallow_eq_range (cbs : List (PVal → Except Unit Unit))
    (v : PVal) : runWatchSwallow cbs v = List.range cbs.length := by
  induction cbs with
  | nil => rfl
  | cons cb rest ih =>
      cases hc : cb v with
      | ok u =>
          simp only [runWatchSwallow, hc, ih, List.length_cons]
          rw [range_succ_shift]
      | error u =>
          simp only [runWatchSwallow, hc, ih, List.length_cons]
          rw [range_succ_shift]

/-- A key freshly moved to the tail survives the closing eviction loop of
`set_multiple` whenever the key budget is at least one. -/
theorem odLookup_dropToMax_self (max : Nat) (hmax : 1 ≤ max)
    (l : List (Key × Wrapper)) (k : Key) (w : Wrapper) :
    odLookup (dropToMax max (odSet l k w)).1 k = some w := by
  have hn : (odSet l k w).length - max ≤ (odErase l k).length := by
    simp only [odSet, List.length_append, List.length_singleton]
    omega
  have htake : (odSet l k w).take ((odSet l k w).length - max) =
      (odErase l k).take ((odSet l k w).length - max) := by
    rw [odSet]
    exact List.take_append_of_le_length hn
  unfold dropToMax
  rw [odLookup_drop]
  · exact odLookup_odSet_self l k w
  · rw [htake]
    intro hk
    apply not_mem_fst_odErase l k
    rcases List.mem_map.mp hk with ⟨p, hp, hpk⟩
    exact List.mem_map.mpr ⟨p, List.take_subset _ _ hp, hpk⟩

/-- Concrete instance whose single middleware raises, for the
`set_multiple` middleware-propagation witness. -/
def s8exMW : FSt8 :=
  { s8ex with middleware := [fun _ _ => .error ()] }

/-- Claim C8 (amended): on both write paths the value is stored and
marked dirty before the watchers run, so a watcher failure never undoes
the write; in `set_multiple` watcher failures are swallowed and every
watcher of each key is invoked; in `set_value`, however, a watcher
failure propagates to the caller and the remaining watchers are skipped.
Middleware failures propagate on both paths and, before any store, in
`set_value`; in `set_multiple` a middleware failure aborts the key loop
and propagates, leaving the state untouched for the failing key. -/
theorem c8_watcher_middleware_semantics :
    (∀ (s : FSt8) (k : Key) (v v' : PVal) (t : Table) (ttl : Option Nat),
      applyMWE s.middleware k v = .ok v' → 1 ≤ s.maxKeys →
      odLookup ((setValue8 s k v t ttl).1.memory t) k =
        some ⟨v', mkExpiry s.now ttl⟩ ∧
      (setValue8 s k v t ttl).1.cacheF t k =
        some ⟨v', mkExpiry s.now ttl⟩) ∧
    (∀ (cbs : List (PVal → Except Unit Unit)) (v : PVal),
      runWatchSwallow cbs v = List.range cbs.length) ∧
    (∀ (cbs₁ cbs₂ : List (PVal → Except Unit Unit))
        (cb : PVal → Except Unit Unit) (v : PVal),
      (∀ c ∈ cbs₁, c v = .ok ()) → cb v = .error () →
      runWatchStop (cbs₁ ++ cb :: cbs₂) v =
        (List.range (cbs₁.length + 1), true)) ∧
    (∀ (s : FSt8) (k : Key) (v : PVal) (t : Table) (ttl : Option Nat),
      applyMWE s.middleware k v = .error () →
      setValue8 s k v t ttl = (s, [], true)) ∧
    (∀ (s : FSt8) (k : Key) (v v' : PVal) (t : Table) (ttl : Option Nat),
      applyMWE s.middleware k v = .ok v' → 1 ≤ s.maxKeys →
      odLookup ((setMultiple8 s [(k, v)] t ttl).1.memory t) k =
        some ⟨v', mkExpiry s.now ttl⟩ ∧
      (setMultiple8 s [(k, v)] t ttl).1.cacheF t k =
        some ⟨v', mkExpiry s.now ttl⟩ ∧
      (setMultiple8 s [(k, v)] t ttl).2.1 =
        [(k, List.range (s.watchers k).length)] ∧
      (setMultiple8 s [(k, v)] t ttl).2.2 = false) ∧
    (∀ (s : FSt8) (k : Key) (v : PVal) (t : Table) (ttl : Option Nat),
      applyMWE s.middleware k v = .error () →
      (∀ t', (setMultiple8 s [(k, v)] t ttl).1.memory t' = s.memory t') ∧
      (∀ t' k', (setMultiple8 s [(k, v)] t ttl).1.cacheF t' k' =
        s.cacheF t' k') ∧
      (∀ t' k', (setMultiple8 s [(k, v)] t ttl).1.deleted t' k' =
        s.deleted t' k') ∧
      (setMultiple8 s [(k, v)] t ttl).2.1 = [] ∧
      (setMultiple8 s [(k, v)] t ttl).2.2 = true) := by
  refine ⟨?_, ?_, ?_, ?_, ?_, ?_⟩
  · intro s k v v' t ttl hmw hmax
    simp only [setValue8, hmw]
    constructor
    · rw [upd_same]
      exact odLookup_manage_self s.maxKeys hmax _ _ _
    · rw [upd2_same]
  · intro cbs v
    exact runWatchSwallow_eq_range cbs v
  · intro cbs₁ cbs₂ cb v hok hfail
    induction cbs₁ with
    | nil =>
        simp only [List.nil_append, List.length_nil, Nat.zero_add]
        simp only [runWatchStop, hfail]
        decide
    | cons c rest ih =>
        have hc : c v = .ok () := hok c (List.mem_cons_self _ _)
        have hrest : ∀ c' ∈ rest, c' v = .ok () := by
          intro c' hc'
          exact hok c' (List.mem_cons_of_mem _ hc')
        have hstep : runWatchStop (c :: (rest ++ cb :: cbs₂)) v =
            (0 :: ((runWatchStop (rest ++ cb :: cbs₂) v).1.map
              (fun i => i + 1)),
             (runWatchStop (rest ++ cb :: cbs₂) v).2) := by
          simp [runWatchStop, hc]
        rw [List.cons_append, hstep, ih hrest, List.length_cons]
        conv_rhs => rw [range_succ_shift (rest.length + 1)]
  · intro s k v t ttl herr
    simp [setValue8, herr]
  · intro s k v v' t ttl hmw hmax
    refine ⟨?_, ?_, ?_, ?_⟩
    · simp only [setMultiple8, smLoop8, hmw, Bool.false_eq_true, if_false]
      rw [upd_same]
      exact odLookup_dropToMax_self s.maxKeys hmax _ _ _
    · simp only [setMultiple8, smLoop8, hmw]
      rw [upd_same]
      simp
    · simp only [setMultiple8, smLoop8, hmw]
      rw [runWatchSwallow_eq_range]
    · simp only [setMultiple8, smLoop8, hmw]
  · intro s k v t ttl herr
    refine ⟨?_, ?_, ?_, ?_, ?_⟩
    · intro t'
      by_cases ht : t' = t
      · subst ht
        simp [setMultiple8, smLoop8, herr, upd_same]
      · simp [setMultiple8, smLoop8, herr, upd_ne _ _ _ _ ht]
    · intro t' k'
      by_cases ht : t' = t
      · subst ht
        simp [setMultiple8, smLoop8, herr, upd_same]
      · simp [setMultiple8, smLoop8, herr, upd_ne _ _ _ _ ht]
    · intro t' k'
      by_cases ht : t' = t
      · subst ht
        simp [setMultiple8, smLoop8, herr, upd_same]
      · simp [setMultiple8, smLoop8, herr, upd_ne _ _ _ _ ht]
    · simp [setMultiple8, smLoop8, herr]
    · simp [setMultiple8, smLoop8, herr]

theorem c8_watcher_middleware_semantics_witness :
    (odLookup ((setValue8 s8ex "k" (PVal.vint 1) "storage" none).1.memory
        "storage") "k" = some ⟨PVal.vint 1, none⟩ ∧
      (setValue8 s8ex "k" (PVal.vint 1) "storage" none).1.cacheF "storage"
        "k" = some ⟨PVal.vint 1, none⟩) ∧
    runWatchSwallow [fun _ => Except.error (), fun _ => Except.ok ()]
      (PVal.vint 1) = List.range 2 ∧
    runWatchStop ([fun _ => Except.ok ()] ++
        (fun _ => Except.error ()) :: []) (PVal.vint 1) =
      (List.range 2, true) ∧
    ((setMultiple8 s8ex [("k", PVal.vint 1)] "storage" none).2.1 =
        [("k", List.range 2)] ∧
      (setMultiple8 s8ex [("k", PVal.vint 1)] "storage" none).2.2 =
        false) ∧
    ((setMultiple8 s8exMW [("k", PVal.vint 1)] "storage" none).1.memory
        "storage" = s8exMW.memory "storage" ∧
      (setMultiple8 s8exMW [("k", PVal.vint 1)] "storage" none).2.2 =
        true) :=
  ⟨c8_watcher_middleware_semantics.1 s8ex "k" (PVal.vint 1) (PVal.vint 1)
     "storage" none rfl (by decide),
   c8_watcher_middleware_semantics.2.1
     [fun _ => Except.error (), fun _ => Except.ok ()] (PVal.vint 1),
   c8_watcher_middleware_semantics.2.2.1 [fun _ => Except.ok ()] []
     (fun _ => Except.error ()) (PVal.vint 1)
     (by
       intro c hc
       rw [List.mem_singleton] at hc
       subst hc
       rfl)
     rfl,
   ⟨(c8_watcher_middleware_semantics.2.2.2.2.1 s8ex "k" (PVal.vint 1)
       (PVal.vint 1) "storage" none rfl (by decide)).2.2.1,
    (c8_watcher_middleware_semantics.2.2.2.2.1 s8ex "k" (PVal.vint 1)
       (PVal.vint 1) "storage" none rfl (by decide)).2.2.2⟩,
   ⟨(c8_watcher_middleware_semantics.2.2.2.2.2 s8exMW "k" (PVal.vint 1)
       "storage" none rfl).1 "storage",
    (c8_watcher_middleware_semantics.2.2.2.2.2 s8exMW "k" (PVal.vint 1)
       "storage" none rfl).2.2.2.2⟩⟩

/-! ### Claim C9: codec round trip -/

def COMPRESSION_THRESHOLD : Nat := 1024

/-- `Light._serialize` over an abstract value codec and compressor
(`ujson` and `zlib` are external libraries; the spec treats the codec as
an interface): JSON-encode, and compress only when the encoded length
exceeds the threshold.  The sum tag models the Python str/bytes type
distinction. -/
def serializeW {V C : Type} (dumps : V → String) (compress : String → C)
    (v : V) : Sum String C :=
  let j := dumps v
  if COMPRESSION_THRESHOLD < j.length then Sum.inr (compress j)
  else Sum.inl j

/-- `Light._deserialize`: detect the compressed (bytes) form by its type,
decompress if needed, then JSON-decode. -/
def deserializeW {V C : Type} (loads : String → V) (decompress : C → String) :
    Sum String C → V
  | Sum.inl j => loads j
  | Sum.inr b => loads (decompress b)

/-- Claim C9: with a JSON codec and a compressor that are mutual
inverses, `deserialize (serialize v) = v` for every value, both at or
below the compression threshold (stored raw, as a str) and above it
(stored compressed, as bytes), the form being detected by type on read. -/
theorem c9_roundtrip {V C : Type} (dumps : V → String) (loads : String → V)
    (compress : String → C) (decompress : C → String)
    (hdl : ∀ v, loads (dumps v) = v)
    (hcd : ∀ j, decompress (compress j) = j) (v : V) :
    deserializeW loads decompress (serializeW dumps compress v) = v ∧
    (COMPRESSION_THRESHOLD < (dumps v).length →
      serializeW dumps compress v = Sum.inr (compress (dumps v))) ∧
    ((dumps v).length ≤ COMPRESSION_THRESHOLD →
      serializeW dumps compress v = Sum.inl (dumps v)) := by
  refine ⟨?_, ?_, ?_⟩
  · by_cases h : COMPRESSION_THRESHOLD < (dumps v).length
    · simp [serializeW, h, deserializeW, hcd, hdl]
    · simp [serializeW, h, deserializeW, hdl]
  · intro h
    simp [serializeW, h]
  · intro h
    have h2 : ¬ COMPRESSION_THRESHOLD < (dumps v).length := by omega
    simp [serializeW, h2]

set_option maxRecDepth 8192 in
theorem c9_roundtrip_witness :
    deserializeW id id (serializeW id id "x") = "x" ∧
    serializeW (id : String → String) (id : String → String) "x" =
      Sum.inl "x" ∧
    deserializeW id id
      (serializeW id id (String.mk (List.replicate 1025 'x'))) =
      String.mk (List.replicate 1025 'x') ∧
    serializeW (id : String → String) (id : String → String)
      (String.mk (List.replicate 1025 'x')) =
      Sum.inr (String.mk (List.replicate 1025 'x')) :=
  ⟨(c9_roundtrip id id id id (fun _ => rfl) (fun _ => rfl) "x").1,
   (c9_roundtrip id id id id (fun _ => rfl) (fun _ => rfl) "x").2.2
     (by decide),
   (c9_roundtrip id id id id (fun _ => rfl) (fun _ => rfl)
     (String.mk (List.replicate 1025 'x'))).1,
   (c9_roundtrip id id id id (fun _ => rfl) (fun _ => rfl)
     (String.mk (List.replicate 1025 'x'))).2.1 (by decide)⟩

end DBLight
